import Mathlib

/-!
Verification of the GOAP (goal-oriented action planning) engine of the
`agentic` repository against its natural-language specification.

The Go sources are shallowly embedded:
* `WorldState` (a Go `map[string]interface{}`) becomes an association list
  from keys to a closed `Value` universe; Go map iteration order never
  influences the observable results modelled here (lookups are key-based and
  `String()` sorts keys), so the list representation is faithful.
* `float64` action costs are modelled as exact integers (`Int`): every claim
  under study involves only addition and order comparison of costs, and any
  finite action set with real costs can be rescaled; floating-point rounding
  itself is outside the embedding.
* In-place mutation is modelled either by explicit state threading (the
  executor) or by a store of numbered cells (`Store`) when aliasing matters.
* Go loops whose iteration counts are bounded by the data are embedded with
  a structural fuel parameter chosen at each call site to exceed the bound,
  so the fuel never runs out on the executions the theorems talk about.
-/

set_option maxHeartbeats 4000000

namespace GoapSpec

/-- Closed universe of world-state values: the repository stores booleans,
integers and strings in `WorldState` maps (floats are out of the embedding).
Go `==` on `interface{}` becomes decidable equality on the tagged variant. -/
inductive Value where
  | vBool (b : Bool)
  | vInt (n : Int)
  | vStr (s : String)
deriving DecidableEq

/-- Rendering used by `WorldState.String()` via `fmt.Sprintf("%v", v)`. -/
def valueStr : Value → String
  | .vBool b => if b then "true" else "false"
  | .vInt n => toString n
  | .vStr s => s

/-- Embedding of `WorldState` (`map[string]interface{}` with unique keys):
an association list from keys to values. -/
abbrev WorldState := List (String × Value)

/-- Generic association-list lookup; used for Go map indexing `m[k]`. -/
def lookupA {β : Type} : List (String × β) → String → Option β
  | [], _ => none
  | kv :: t, k => if kv.1 = k then some kv.2 else lookupA t k

/-- Embedding of `WorldState.Get` (returns `nil`, i.e. `none`, when absent). -/
def wsGet (ws : WorldState) (k : String) : Option Value := lookupA ws k

/-- Embedding of `WorldState.Set` / Go map assignment `ws[k] = v`:
overwrite the binding if the key is present, otherwise add it. -/
def wsSet : WorldState → String → Value → WorldState
  | [], k, v => [(k, v)]
  | kv :: t, k, v => if kv.1 = k then (k, v) :: t else kv :: wsSet t k v

/-- Embedding of `WorldState.Has`. -/
def wsHas (ws : WorldState) (k : String) : Bool := (wsGet ws k).isSome

/-- Embedding of `WorldState.Matches(conditions)`: every key of `conditions`
is present in `ws` with an equal value. -/
def wsMatches (ws conds : WorldState) : Bool :=
  conds.all (fun kv => wsGet ws kv.1 == some kv.2)

/-- Embedding of `WorldState.Apply(changes)`: overwrite/insert every binding
of `changes` into `ws`. -/
def wsApply (ws changes : WorldState) : WorldState :=
  changes.foldl (fun acc kv => wsSet acc kv.1 kv.2) ws

/-- Embedding of `WorldState.Clone`. On the pure value representation a deep
copy is the identity; aliasing-sensitive claims use the `Store` model below. -/
def wsClone (ws : WorldState) : WorldState := ws

/-- Embedding of `WorldState.Distance(goal)`: the number of entries of `goal`
that are absent or unequal in `ws`. -/
def wsDistance (ws goal : WorldState) : Nat :=
  goal.countP (fun kv => !(wsGet ws kv.1 == some kv.2))

/-- Byte-wise lexicographic order on strings, as used by Go `sort.Strings`
(the keys in this development are ASCII, where Go bytes and Lean characters
coincide). Implemented directly so that it evaluates in the kernel. -/
def charListLt : List Char → List Char → Bool
  | [], [] => false
  | [], _ :: _ => true
  | _ :: _, [] => false
  | c :: cs, d :: ds =>
    if c.val < d.val then true
    else if d.val < c.val then false
    else charListLt cs ds

/-- String order for the key sort in `WorldState.String()`. -/
def strLt (a b : String) : Bool := charListLt a.data b.data

/-- Insertion step of the key sort of `WorldState.String()`. -/
def insertByKey (p : String × Value) : List (String × Value) → List (String × Value)
  | [] => [p]
  | q :: t => if strLt p.1 q.1 then p :: q :: t else q :: insertByKey p t

/-- Key sort of `WorldState.String()` (Go sorts the key slice; the keys of a
Go map are unique, so sorting the pairs by key is equivalent). -/
def sortByKey (l : List (String × Value)) : List (String × Value) :=
  l.foldr insertByKey []

/-- Embedding of `WorldState.String()`: deterministic rendering with keys in
sorted order; used by the planner to deduplicate search states. -/
def wsString (ws : WorldState) : String :=
  if ws.isEmpty then "\x7b\x7d"
  else
    "\x7b" ++
      String.intercalate ", "
        ((sortByKey ws).map (fun kv => kv.1 ++ ": " ++ valueStr kv.2)) ++
    "\x7d"

/-- Embedding of `Goal`: name, description, desired world-state fragment and
priority (`float64` priority modelled as an integer, like costs). -/
structure Goal where
  name : String
  description : String
  desired : WorldState
  priority : Int
deriving DecidableEq

/-- Embedding of `Goal.IsSatisfied`. -/
def goalIsSatisfied (g : Goal) (current : WorldState) : Bool :=
  wsMatches current g.desired

/-- Embedding of `Goal.Distance`. -/
def goalDistance (g : Goal) (current : WorldState) : Nat :=
  wsDistance current g.desired

/-- Embedding of the planner-visible part of an `Action` (`BaseAction`):
name, description, preconditions, effects and cost. The executor callback is
modelled separately where execution semantics matter. -/
structure PAction where
  name : String
  description : String
  pre : WorldState
  effects : WorldState
  cost : Int
deriving DecidableEq

/-- Embedding of `Action.CanExecute`. -/
def canExecute (a : PAction) (current : WorldState) : Bool :=
  wsMatches current a.pre

/-! ### The open-set priority queue

Embedding of Go `container/heap` specialised by `PriorityQueue`: a binary
min-heap stored in a slice, with `Less(i, j) = pq[i].FCost() < pq[j].FCost()`.
The sift loops of `heap.Push`/`heap.Pop` are embedded with a structural fuel
parameter; the wrappers supply fuel exceeding the maximal number of sift
steps, so the fuelled loops agree with Go's unbounded ones.  The queue is
generic in the element type and the cost function, mirroring the
`heap.Interface` indirection (`Node.index` exists only to support
`heap.Fix`, which the planner never uses, and is dropped). -/

section Heap

variable {α : Type} [Inhabited α]

/-- Swap of two slice positions, as performed by `PriorityQueue.Swap`. -/
def swapL (l : List α) (i j : Nat) : List α :=
  (l.set i (l.getD j default)).set j (l.getD i default)

/-- Embedding of the `up` sift loop of `container/heap`. -/
def siftUpAux (f : α → Int) : Nat → List α → Nat → List α
  | 0, l, _ => l
  | fuel + 1, l, j =>
    if j = 0 then l
    else
      let i := (j - 1) / 2
      if f (l.getD j default) < f (l.getD i default) then
        siftUpAux f fuel (swapL l i j) i
      else l

/-- The `up(j)` call of `container/heap`; `j + 1` sift steps always suffice
because the index strictly decreases towards the root. -/
def siftUp (f : α → Int) (l : List α) (j : Nat) : List α :=
  siftUpAux f (j + 1) l j

/-- Embedding of the `down` sift loop of `container/heap` restricted to the
prefix of length `n`. -/
def siftDownAux (f : α → Int) : Nat → List α → Nat → Nat → List α
  | 0, l, _, _ => l
  | fuel + 1, l, i, n =>
    let j1 := 2 * i + 1
    if n ≤ j1 then l
    else
      let j2 := j1 + 1
      let j := if j2 < n ∧ f (l.getD j2 default) < f (l.getD j1 default) then j2 else j1
      if f (l.getD j default) < f (l.getD i default) then
        siftDownAux f fuel (swapL l i j) j n
      else l

/-- The `down(i, n)` call of `container/heap`; `n + 1` sift steps always
suffice because the index strictly increases and stays below `n`. -/
def siftDown (f : α → Int) (l : List α) (i n : Nat) : List α :=
  siftDownAux f (n + 1) l i n

/-- Embedding of `heap.Push`: append, then sift the new last element up. -/
def heapPush (f : α → Int) (l : List α) (x : α) : List α :=
  siftUp f (l ++ [x]) l.length

/-- Embedding of `heap.Pop`: swap the root with the last element, sift the
new root down over the shortened prefix, then remove and return the last
element (the old root). -/
def heapPop (f : α → Int) (l : List α) : Option (α × List α) :=
  match l with
  | [] => none
  | _ :: _ =>
    let n := l.length - 1
    let l2 := siftDown f (swapL l 0 n) 0 n
    some (l2.getD n default, l2.take n)

end Heap

/-! ### The A* planner (`Planner.FindPlan`) -/

/-- Embedding of the A* search `Node`: accumulated state, action path and
costs (the unused `parent` back-pointer and the heap bookkeeping `index` are
dropped). -/
structure ANode where
  state : WorldState
  actions : List PAction
  gCost : Int
  hCost : Int
deriving DecidableEq, Inhabited

/-- Embedding of `Node.FCost`. -/
def fCost (n : ANode) : Int := n.gCost + n.hCost

/-- Embedding of `Plan`: the found action sequence and its accumulated cost. -/
structure Plan where
  actions : List PAction
  cost : Int
deriving DecidableEq

/-- Embedding of the successor-expansion loop of `Planner.FindPlan`: for each
available action in registration order, if its preconditions match, clone the
state, apply the effects, drop successors whose state key was already
visited, and push the rest onto the open set. -/
def expandNode (acts : List PAction) (goal : Goal) (cur : ANode)
    (visited : List String) (openSet : List ANode) : List ANode :=
  acts.foldl
    (fun acc a =>
      if canExecute a cur.state then
        let newState := wsApply (wsClone cur.state) a.effects
        if wsString newState ∈ visited then acc
        else
          heapPush fCost acc
            ⟨newState, cur.actions ++ [a], cur.gCost + a.cost,
              (goalDistance goal newState : Int)⟩
      else acc)
    openSet

/-- Embedding of the main loop of `Planner.FindPlan`; the fuel is the
iteration budget (`maxIterations = 1000`), decremented once per pop exactly
as the Go loop counts iterations. -/
def findLoop (acts : List PAction) (goal : Goal) :
    Nat → List ANode → List String → Option Plan
  | 0, _, _ => none
  | fuel + 1, openSet, visited =>
    match heapPop fCost openSet with
    | none => none
    | some (cur, rest) =>
      let stateKey := wsString cur.state
      if stateKey ∈ visited then findLoop acts goal fuel rest visited
      else
        let visited2 := stateKey :: visited
        if goalIsSatisfied goal cur.state then some ⟨cur.actions, cur.gCost⟩
        else findLoop acts goal fuel (expandNode acts goal cur visited2 rest) visited2

/-- Embedding of `Planner.FindPlan`: early return of the empty plan when the
goal is already satisfied, otherwise A* from the cloned start state with an
iteration cap of 1000. -/
def findPlan (acts : List PAction) (current : WorldState) (goal : Goal) :
    Option Plan :=
  if goalIsSatisfied goal current then some ⟨[], 0⟩
  else
    let startNode : ANode :=
      ⟨wsClone current, [], 0, (goalDistance goal current : Int)⟩
    findLoop acts goal 1000 (heapPush fCost [] startNode) []

/-! ### List access lemmas for the heap embedding -/

section HeapLemmas

variable {α : Type} [Inhabited α]

theorem getD_set_self (l : List α) (i : Nat) (v : α) (h : i < l.length) :
    (l.set i v).getD i default = v := by
  simp [List.getD_eq_getElem?_getD, List.getElem?_set_self, h]

theorem getD_set_ne (l : List α) {i k : Nat} (v : α) (h : i ≠ k) :
    (l.set i v).getD k default = l.getD k default := by
  simp [List.getD_eq_getElem?_getD, List.getElem?_set_ne h]

theorem length_swapL (l : List α) (i j : Nat) : (swapL l i j).length = l.length := by
  simp [swapL]

theorem getD_swapL_right (l : List α) {i j : Nat} (hj : j < l.length) :
    (swapL l i j).getD j default = l.getD i default := by
  unfold swapL
  exact getD_set_self _ j _ (by simpa using hj)

theorem getD_swapL_left (l : List α) {i j : Nat} (hij : i ≠ j) (hi : i < l.length) :
    (swapL l i j).getD i default = l.getD j default := by
  unfold swapL
  rw [getD_set_ne _ _ (fun h => hij h.symm), getD_set_self _ i _ hi]

theorem getD_swapL_other (l : List α) {i j k : Nat} (h1 : k ≠ i) (h2 : k ≠ j) :
    (swapL l i j).getD k default = l.getD k default := by
  unfold swapL
  rw [getD_set_ne _ _ (fun h => h2 h.symm), getD_set_ne _ _ (fun h => h1 h.symm)]

theorem getD_mem (l : List α) {i : Nat} (h : i < l.length) : l.getD i default ∈ l := by
  rw [List.getD_eq_getElem l default h]
  exact List.getElem_mem h

theorem mem_swapL (l : List α) {i j : Nat} {x : α} (hi : i < l.length)
    (hj : j < l.length) (hx : x ∈ swapL l i j) : x ∈ l := by
  unfold swapL at hx
  rcases List.mem_or_eq_of_mem_set hx with hx2 | rfl
  · rcases List.mem_or_eq_of_mem_set hx2 with hx3 | rfl
    · exact hx3
    · exact getD_mem l hj
  · exact getD_mem l hi

theorem mem_siftUpAux (f : α → Int) {x : α} :
    ∀ (fuel : Nat) (l : List α) (j : Nat), j < l.length →
      x ∈ siftUpAux f fuel l j → x ∈ l := by
  intro fuel
  induction fuel with
  | zero => intro l j _ hx; exact hx
  | succ fuel ih =>
    intro l j hj hx
    unfold siftUpAux at hx
    by_cases h0 : j = 0
    · simpa [h0] using hx
    · simp only [h0, if_false] at hx
      split at hx
      · have hij : (j - 1) / 2 < j := by omega
        have hx2 := ih (swapL l ((j - 1) / 2) j) ((j - 1) / 2)
          (by rw [length_swapL]; omega) hx
        exact mem_swapL l (by omega) hj hx2
      · exact hx

theorem mem_siftDownAux (f : α → Int) {x : α} :
    ∀ (fuel : Nat) (l : List α) (i n : Nat), n ≤ l.length → i < l.length →
      x ∈ siftDownAux f fuel l i n → x ∈ l := by
  intro fuel
  induction fuel with
  | zero => intro l i n _ _ hx; exact hx
  | succ fuel ih =>
    intro l i n hn hi hx
    unfold siftDownAux at hx
    by_cases h1 : n ≤ 2 * i + 1
    · simpa [h1] using hx
    · simp only [h1, if_false] at hx
      split at hx <;> rename_i hsel <;> split at hx
      · have hx2 := ih _ _ n (by rw [length_swapL]; exact hn)
          (by rw [length_swapL]; omega) hx
        exact mem_swapL l hi (by omega) hx2
      · exact hx
      · have hx2 := ih _ _ n (by rw [length_swapL]; exact hn)
          (by rw [length_swapL]; omega) hx
        exact mem_swapL l hi (by omega) hx2
      · exact hx

theorem heapPush_mem (f : α → Int) {l : List α} {x y : α}
    (hx : x ∈ heapPush f l y) : x ∈ l ∨ x = y := by
  unfold heapPush siftUp at hx
  have hx2 := mem_siftUpAux f (l.length + 1) (l ++ [y]) l.length (by simp) hx
  simpa using hx2

theorem getD_siftDownAux_ge (f : α → Int) :
    ∀ (fuel : Nat) (l : List α) (i n k : Nat), n ≤ k →
      (siftDownAux f fuel l i n).getD k default = l.getD k default := by
  intro fuel
  induction fuel with
  | zero => intro l i n k _; rfl
  | succ fuel ih =>
    intro l i n k hnk
    unfold siftDownAux
    by_cases h1 : n ≤ 2 * i + 1
    · simp [h1]
    · simp only [h1, if_false]
      split <;> rename_i hsel <;> split
      · rw [ih _ _ n k hnk, getD_swapL_other l (by omega) (by omega)]
      · rfl
      · rw [ih _ _ n k hnk, getD_swapL_other l (by omega) (by omega)]
      · rfl

theorem heapPop_eq (f : α → Int) {l : List α} {x : α} {rest : List α}
    (he : heapPop f l = some (x, rest)) :
    x = l.getD 0 default ∧
      rest = (siftDown f (swapL l 0 (l.length - 1)) 0 (l.length - 1)).take (l.length - 1) := by
  match l, he with
  | a :: t, he =>
    simp only [heapPop, Option.some.injEq, Prod.mk.injEq] at he
    obtain ⟨hx, hrest⟩ := he
    refine ⟨?_, hrest.symm⟩
    rw [← hx]
    unfold siftDown
    rw [getD_siftDownAux_ge f _ _ 0 _ _ (le_refl _),
      getD_swapL_right _ (by simp)]

theorem heapPop_mem (f : α → Int) {l : List α} {x : α} {rest : List α}
    (he : heapPop f l = some (x, rest)) :
    x ∈ l ∧ ∀ y ∈ rest, y ∈ l := by
  obtain ⟨hx, hrest⟩ := heapPop_eq f he
  have hlen : 0 < l.length := by
    cases l
    · simp [heapPop] at he
    · simp
  constructor
  · rw [hx]; exact getD_mem l hlen
  · intro y hy
    rw [hrest] at hy
    have hy2 : y ∈ siftDown f (swapL l 0 (l.length - 1)) 0 (l.length - 1) :=
      List.mem_of_mem_take hy
    unfold siftDown at hy2
    have hy3 := mem_siftDownAux f _ _ 0 (l.length - 1)
      (by rw [length_swapL]; omega) (by rw [length_swapL]; omega) hy2
    exact mem_swapL l hlen (by omega) hy3

end HeapLemmas

/-! ### Heap-order theory for the open set -/

section HeapOrder

variable {α : Type} [Inhabited α] {f : α → Int}

/-- The binary-heap invariant of `container/heap` for the comparison
`Less(i, j) = f pq[i] < f pq[j]` on the prefix of length `n`: every non-root
position is not less than its parent. -/
def HeapOn (f : α → Int) (l : List α) (n : Nat) : Prop :=
  ∀ k, 0 < k → k < n → f (l.getD ((k - 1) / 2) default) ≤ f (l.getD k default)

/-- The heap invariant over the whole slice. -/
def IsMinHeap (f : α → Int) (l : List α) : Prop := HeapOn f l l.length

theorem isMinHeap_root_le (h : IsMinHeap f l) :
    ∀ j, j < l.length → f (l.getD 0 default) ≤ f (l.getD j default) := by
  intro j
  induction j using Nat.strong_induction_on with
  | _ j ih =>
    intro hj
    rcases Nat.eq_zero_or_pos j with rfl | hj0
    · exact le_refl _
    · exact le_trans (ih ((j - 1) / 2) (by omega) (by omega)) (h j hj0 hj)

/-- Invariant carried by the `up` sift loop: the heap relation holds away
from the moving index `j`, and the children of `j` dominate the parent of
`j`. -/
def UpInv (f : α → Int) (l : List α) (j : Nat) : Prop :=
  (∀ k, 0 < k → k < l.length → k ≠ j →
    f (l.getD ((k - 1) / 2) default) ≤ f (l.getD k default)) ∧
  (0 < j → ∀ c, c < l.length → (c = 2 * j + 1 ∨ c = 2 * j + 2) →
    f (l.getD ((j - 1) / 2) default) ≤ f (l.getD c default))

theorem upInv_swap {l : List α} {j : Nat} (hj0 : j ≠ 0) (hjlen : j < l.length)
    (hlt : f (l.getD j default) < f (l.getD ((j - 1) / 2) default))
    (hinv : UpInv f l j) : UpInv f (swapL l ((j - 1) / 2) j) ((j - 1) / 2) := by
  set i := (j - 1) / 2 with hidef
  have hij : i < j := by omega
  have hilen : i < l.length := by omega
  have hswap_len : (swapL l i j).length = l.length := length_swapL l i j
  have gi : (swapL l i j).getD i default = l.getD j default :=
    getD_swapL_left l (by omega) hilen
  have gj : (swapL l i j).getD j default = l.getD i default :=
    getD_swapL_right l hjlen
  have gother : ∀ k, k ≠ i → k ≠ j →
      (swapL l i j).getD k default = l.getD k default := fun k h1 h2 =>
    getD_swapL_other l h1 h2
  constructor
  · intro k hk0 hklen hki
    rw [hswap_len] at hklen
    by_cases hkj : k = j
    · subst hkj
      rw [gj]
      have : (k - 1) / 2 = i := hidef.symm
      rw [this, gi]
      exact le_of_lt hlt
    · have gk : (swapL l i j).getD k default = l.getD k default := gother k hki hkj
      by_cases hpj : (k - 1) / 2 = j
      · rw [hpj, gj, gk]
        have hchild : k = 2 * j + 1 ∨ k = 2 * j + 2 := by omega
        exact hinv.2 (by omega) k hklen hchild
      · by_cases hpi : (k - 1) / 2 = i
        · rw [hpi, gi, gk]
          have h1 : f (l.getD i default) ≤ f (l.getD k default) := by
            have := hinv.1 k hk0 hklen hkj
            rwa [hpi] at this
          exact le_trans (le_of_lt hlt) h1
        · rw [gother _ hpi hpj, gk]
          exact hinv.1 k hk0 hklen hkj
  · intro hi0 c hclen hc
    rw [hswap_len] at hclen
    have hpi : (i - 1) / 2 ≠ i := by omega
    have hpj : (i - 1) / 2 ≠ j := by omega
    rw [gother _ hpi hpj]
    have hii : f (l.getD ((i - 1) / 2) default) ≤ f (l.getD i default) := by
      have := hinv.1 i hi0 hilen (by omega)
      exact this
    by_cases hcj : c = j
    · subst hcj
      rw [gj]
      exact hii
    · have hc0 : 0 < c := by omega
      have hci : c ≠ i := by omega
      rw [gother _ hci hcj]
      have hparent : (c - 1) / 2 = i := by omega
      have := hinv.1 c hc0 hclen hcj
      rw [hparent] at this
      exact le_trans hii this

theorem siftUpAux_isMinHeap :
    ∀ (fuel : Nat) (l : List α) (j : Nat), j < fuel → j < l.length →
      UpInv f l j → IsMinHeap f (siftUpAux f fuel l j) := by
  intro fuel
  induction fuel with
  | zero => intro l j hj; omega
  | succ fuel ih =>
    intro l j hjf hjlen hinv
    unfold siftUpAux
    by_cases h0 : j = 0
    · subst h0
      simp only [if_true]
      intro k hk0 hklen
      exact hinv.1 k hk0 hklen (by omega)
    · simp only [h0, if_false]
      split
      · rename_i hlt
        exact ih _ _ (by omega) (by rw [length_swapL]; omega)
          (upInv_swap h0 hjlen hlt hinv)
      · rename_i hge
        intro k hk0 hklen
        by_cases hkj : k = j
        · subst hkj
          exact le_of_not_lt hge
        · exact hinv.1 k hk0 hklen hkj

theorem heapPush_isMinHeap {l : List α} (h : IsMinHeap f l) (x : α) :
    IsMinHeap f (heapPush f l x) := by
  unfold heapPush siftUp
  apply siftUpAux_isMinHeap (l.length + 1) (l ++ [x]) l.length (by omega) (by simp)
  constructor
  · intro k hk0 hklen hkj
    have hklt : k < l.length := by
      simp only [List.length_append, List.length_cons, List.length_nil] at hklen
      omega
    rw [List.getD_append _ _ _ _ hklt, List.getD_append _ _ _ _ (by omega)]
    exact h k hk0 hklt
  · intro hl0 c hclen hc
    simp only [List.length_append, List.length_cons, List.length_nil] at hclen
    omega

/-- Invariant carried by the `down` sift loop: the heap relation holds on the
prefix away from children of the moving index `i`, and the children of `i`
dominate the parent of `i`. -/
def DownInv (f : α → Int) (l : List α) (i n : Nat) : Prop :=
  (∀ k, 0 < k → k < n → (k - 1) / 2 ≠ i →
    f (l.getD ((k - 1) / 2) default) ≤ f (l.getD k default)) ∧
  (0 < i → ∀ k, k < n → (k - 1) / 2 = i →
    f (l.getD ((i - 1) / 2) default) ≤ f (l.getD k default))

theorem downInv_swap {l : List α} {i j n : Nat} (hjn : j < n) (hnlen : n ≤ l.length)
    (hchild : j = 2 * i + 1 ∨ j = 2 * i + 2)
    (hmin : ∀ c, c < n → (c = 2 * i + 1 ∨ c = 2 * i + 2) →
      f (l.getD j default) ≤ f (l.getD c default))
    (hlt : f (l.getD j default) < f (l.getD i default))
    (hinv : DownInv f l i n) : DownInv f (swapL l i j) j n := by
  have hij : i < j := by omega
  have hjlen : j < l.length := by omega
  have hilen : i < l.length := by omega
  have gi : (swapL l i j).getD i default = l.getD j default :=
    getD_swapL_left l (by omega) hilen
  have gj : (swapL l i j).getD j default = l.getD i default :=
    getD_swapL_right l hjlen
  have gother : ∀ k, k ≠ i → k ≠ j →
      (swapL l i j).getD k default = l.getD k default := fun k h1 h2 =>
    getD_swapL_other l h1 h2
  have hpj : (j - 1) / 2 = i := by omega
  constructor
  · intro k hk0 hkn hkpj
    by_cases hkj : k = j
    · subst hkj
      rw [hpj, gi, gj]
      exact le_of_lt hlt
    · by_cases hki : k = i
      · subst hki
        have hpki : (k - 1) / 2 ≠ k := by omega
        rw [gother _ hpki (by omega), gi]
        exact hinv.2 hk0 j hjn hpj
      · have gk : (swapL l i j).getD k default = l.getD k default := gother k hki hkj
        by_cases hkpi : (k - 1) / 2 = i
        · rw [hkpi, gi, gk]
          exact hmin k hkn (by omega)
        · rw [gother _ hkpi (by omega), gk]
          exact hinv.1 k hk0 hkn hkpi
  · intro _ k hkn hkp
    have hk0 : 0 < k := by omega
    have hkgt : j < k := by omega
    rw [hpj, gi, gother k (by omega) (by omega)]
    have := hinv.1 k hk0 hkn (by omega)
    rw [hkp] at this
    exact this

theorem siftDownAux_heapOn :
    ∀ (fuel : Nat) (l : List α) (i n : Nat), n ≤ l.length → n - i ≤ fuel →
      DownInv f l i n → HeapOn f (siftDownAux f fuel l i n) n := by
  intro fuel
  induction fuel with
  | zero =>
    intro l i n hn hfuel hinv k hk0 hkn
    exact hinv.1 k hk0 hkn (by omega)
  | succ fuel ih =>
    intro l i n hn hfuel hinv
    unfold siftDownAux
    by_cases h1 : n ≤ 2 * i + 1
    · simp only [h1, if_true]
      intro k hk0 hkn
      exact hinv.1 k hk0 hkn (by omega)
    · simp only [h1, if_false]
      split <;> rename_i hsel <;> split <;> rename_i hlt
      · -- j = 2i+2, swap branch
        apply ih _ _ n (by rw [length_swapL]; exact hn) (by omega)
        apply downInv_swap (by omega) hn (by omega) _ hlt hinv
        intro c hcn hc
        rcases hc with rfl | rfl
        · exact le_of_lt hsel.2
        · exact le_refl _
      · -- j = 2i+2, no swap: heap restored
        intro k hk0 hkn
        by_cases hkp : (k - 1) / 2 = i
        · rw [hkp]
          have hge : f (l.getD i default) ≤ f (l.getD (2 * i + 1 + 1) default) :=
            le_of_not_lt hlt
        -- k is one of the two children
          rcases (by omega : k = 2 * i + 1 ∨ k = 2 * i + 2) with rfl | rfl
          · exact le_trans hge (le_of_lt hsel.2)
          · exact hge
        · exact hinv.1 k hk0 hkn hkp
      · -- j = 2i+1, swap branch
        apply ih _ _ n (by rw [length_swapL]; exact hn) (by omega)
        apply downInv_swap (by omega) hn (by omega) _ hlt hinv
        intro c hcn hc
        rcases hc with rfl | rfl
        · exact le_refl _
        · by_cases hc2 : 2 * i + 1 + 1 < n
          · have := hsel
            push_neg at this
            exact this hc2
          · omega
      · -- j = 2i+1, no swap: heap restored
        intro k hk0 hkn
        by_cases hkp : (k - 1) / 2 = i
        · rw [hkp]
          have hge : f (l.getD i default) ≤ f (l.getD (2 * i + 1) default) :=
            le_of_not_lt hlt
          rcases (by omega : k = 2 * i + 1 ∨ k = 2 * i + 2) with rfl | rfl
          · exact hge
          · have hc2 : 2 * i + 1 + 1 < n := by omega
            have hge2 : f (l.getD (2 * i + 1) default) ≤
                f (l.getD (2 * i + 1 + 1) default) := by
              have := hsel
              push_neg at this
              exact this hc2
            exact le_trans hge hge2
        · exact hinv.1 k hk0 hkn hkp

theorem getD_take_lt (l : List α) {n k : Nat} (h : k < n) :
    (l.take n).getD k default = l.getD k default := by
  simp [List.getD_eq_getElem?_getD, List.getElem?_take_of_lt h]

theorem heapPop_isMinHeap {l : List α} {x : α} {rest : List α}
    (h : IsMinHeap f l) (he : heapPop f l = some (x, rest)) :
    IsMinHeap f rest := by
  obtain ⟨-, hrest⟩ := heapPop_eq f he
  have hlen : 0 < l.length := by
    cases l
    · simp [heapPop] at he
    · simp
  set n := l.length - 1 with hndef
  have hswap_len : (swapL l 0 n).length = l.length := length_swapL l 0 n
  have hheap : HeapOn f (siftDown f (swapL l 0 n) 0 n) n := by
    unfold siftDown
    apply siftDownAux_heapOn _ _ 0 n (by omega) (by omega)
    constructor
    · intro k hk0 hkn hkp
      rw [getD_swapL_other l (by omega) (by omega),
        getD_swapL_other l (by omega) (by omega)]
      exact h k hk0 (by omega)
    · intro h0; omega
  have hlen2 : (siftDown f (swapL l 0 n) 0 n).length = l.length := by
    unfold siftDown
    have : ∀ (fuel : Nat) (l2 : List α) (i m : Nat),
        (siftDownAux f fuel l2 i m).length = l2.length := by
      intro fuel
      induction fuel with
      | zero => intro l2 i m; rfl
      | succ fuel ih =>
        intro l2 i m
        unfold siftDownAux
        by_cases hm : m ≤ 2 * i + 1
        · simp [hm]
        · simp only [hm, if_false]
          split <;> rename_i hsel <;> split
          · rw [ih, length_swapL]
          · rfl
          · rw [ih, length_swapL]
          · rfl
    rw [this, hswap_len]
  rw [hrest]
  intro k hk0 hklen
  have hkn : k < n := by
    rw [List.length_take, hlen2] at hklen
    omega
  rw [getD_take_lt _ hkn, getD_take_lt _ (by omega)]
  exact hheap k hk0 hkn

theorem heapPop_min {l : List α} {x : α} {rest : List α}
    (h : IsMinHeap f l) (he : heapPop f l = some (x, rest)) :
    ∀ y ∈ l, f x ≤ f y := by
  obtain ⟨hx, -⟩ := heapPop_eq f he
  intro y hy
  obtain ⟨k, hk, hky⟩ := List.getElem_of_mem hy
  have : l.getD k default = y := by
    rw [List.getD_eq_getElem l default hk]
    exact hky
  rw [hx, ← this]
  exact isMinHeap_root_le h k hk

end HeapOrder

/-! ### World-state lemmas and action-sequence semantics -/

/-- State reached by applying the effects of a list of actions in order,
starting from `s` (the simulation used both to state planner soundness and
by the hierarchical planner's effect threading). -/
def applySeq (s : WorldState) (l : List PAction) : WorldState :=
  l.foldl (fun acc a => wsApply acc a.effects) s

/-- Left-to-right sum of action costs, as `FindPlan` accumulates `gCost`. -/
def sumCosts (l : List PAction) : Int :=
  l.foldl (fun c a => c + a.cost) 0

/-- An action sequence is applicable from `s` when every action's
preconditions are matched by the state reached before it runs. -/
def seqOK (s : WorldState) : List PAction → Bool
  | [] => true
  | a :: t => canExecute a s && seqOK (wsApply s a.effects) t

theorem applySeq_append_one (s : WorldState) (l : List PAction) (a : PAction) :
    applySeq s (l ++ [a]) = wsApply (applySeq s l) a.effects := by
  unfold applySeq
  rw [List.foldl_append]
  rfl

theorem sumCosts_shift (l : List PAction) :
    ∀ init : Int, l.foldl (fun c a => c + a.cost) init = init + sumCosts l := by
  induction l with
  | nil => intro init; simp [sumCosts]
  | cons a t ih =>
    intro init
    calc (a :: t).foldl (fun c a => c + a.cost) init
        = t.foldl (fun c a => c + a.cost) (init + a.cost) := rfl
      _ = (init + a.cost) + sumCosts t := ih _
      _ = init + ((0 + a.cost) + sumCosts t) := by ring
      _ = init + t.foldl (fun c a => c + a.cost) (0 + a.cost) := by rw [ih (0 + a.cost)]
      _ = init + sumCosts (a :: t) := rfl

theorem sumCosts_append_one (l : List PAction) (a : PAction) :
    sumCosts (l ++ [a]) = sumCosts l + a.cost := by
  unfold sumCosts
  rw [List.foldl_append]
  rfl

theorem sumCosts_cons (a : PAction) (t : List PAction) :
    sumCosts (a :: t) = a.cost + sumCosts t := by
  calc sumCosts (a :: t) = t.foldl (fun c a => c + a.cost) (0 + a.cost) := rfl
    _ = (0 + a.cost) + sumCosts t := sumCosts_shift t _
    _ = a.cost + sumCosts t := by ring

theorem wsGet_wsSet (ws : WorldState) (k k2 : String) (v : Value) :
    wsGet (wsSet ws k v) k2 = if k = k2 then some v else wsGet ws k2 := by
  induction ws with
  | nil => simp [wsSet, wsGet, lookupA]
  | cons kv t ih =>
    by_cases h : kv.1 = k
    · by_cases h2 : k = k2
      · simp [wsSet, wsGet, lookupA, h, h2]
      · have hne : kv.1 ≠ k2 := by rw [h]; exact h2
        simp [wsSet, wsGet, lookupA, h, h2, hne]
    · by_cases h2 : kv.1 = k2
      · have hne : k ≠ k2 := fun he => h (h2.trans he.symm)
        simp [wsSet, wsGet, lookupA, h, h2, hne, Ne.symm hne]
      · simpa [wsSet, wsGet, lookupA, h, h2] using ih

theorem wsGet_wsApply_of_not_mem (changes : List (String × Value)) :
    ∀ (ws : WorldState) (k : String), k ∉ changes.map Prod.fst →
      wsGet (wsApply ws changes) k = wsGet ws k := by
  induction changes with
  | nil => intro ws k _; rfl
  | cons c t ih =>
    intro ws k hk
    simp only [List.map_cons, List.mem_cons, not_or] at hk
    show wsGet (wsApply (wsSet ws c.1 c.2) t) k = _
    rw [ih _ k hk.2, wsGet_wsSet]
    rw [if_neg (fun h : c.1 = k => hk.1 h.symm)]

theorem countP_le_add_of_imp {β : Type} (l : List β) (p q r : β → Bool)
    (h : ∀ x ∈ l, p x = true → q x = true ∨ r x = true) :
    l.countP p ≤ l.countP q + l.countP r := by
  induction l with
  | nil => simp
  | cons x t ih =>
    have ht := ih (fun y hy => h y (List.mem_cons_of_mem x hy))
    by_cases hp : p x = true
    · rcases h x (List.mem_cons_self x t) hp with hq | hr
      · rw [List.countP_cons_of_pos _ _ hp, List.countP_cons_of_pos _ _ hq,
          List.countP_cons]
        omega
      · rw [List.countP_cons_of_pos _ _ hp, List.countP_cons,
          List.countP_cons_of_pos _ _ hr]
        omega
    · rw [List.countP_cons_of_neg _ _ hp, List.countP_cons, List.countP_cons]
      omega

theorem countP_key_mem_le_length (goal e : WorldState)
    (hnodup : (goal.map Prod.fst).Nodup) :
    goal.countP (fun kv => decide (kv.1 ∈ e.map Prod.fst)) ≤ e.length := by
  rw [List.countP_eq_length_filter]
  set d := goal.filter (fun kv => decide (kv.1 ∈ e.map Prod.fst)) with hd
  have hsub : d.Sublist goal := List.filter_sublist goal
  have hdn : (d.map Prod.fst).Nodup := List.Nodup.sublist (hsub.map Prod.fst) hnodup
  have hss : (d.map Prod.fst) ⊆ e.map Prod.fst := by
    intro k hk
    obtain ⟨kv, hkv, rfl⟩ := List.mem_map.mp hk
    have := List.of_mem_filter hkv
    simpa using this
  have := List.Subperm.length_le (List.Nodup.subperm hdn hss)
  simpa using this

theorem wsDistance_le_apply (s goal e : WorldState)
    (hnodup : (goal.map Prod.fst).Nodup) :
    wsDistance s goal ≤ wsDistance (wsApply s e) goal + e.length := by
  have step : wsDistance s goal ≤ wsDistance (wsApply s e) goal +
      goal.countP (fun kv => decide (kv.1 ∈ e.map Prod.fst)) := by
    unfold wsDistance
    apply countP_le_add_of_imp
    intro kv _ hp
    by_cases hmem : kv.1 ∈ e.map Prod.fst
    · right; simpa using hmem
    · left
      rwa [wsGet_wsApply_of_not_mem e s kv.1 hmem]
  exact le_trans step (by
    have := countP_key_mem_le_length goal e hnodup
    omega)

theorem wsMatches_distance_zero {s goal : WorldState}
    (h : wsMatches s goal = true) : wsDistance s goal = 0 := by
  unfold wsMatches at h
  unfold wsDistance
  rw [List.countP_eq_zero]
  intro kv hkv
  have := (List.all_eq_true.mp h) kv hkv
  simp only [this]
  decide

/-! ### Soundness invariant of the A* loop -/

/-- Invariant satisfied by every node of the open set: its state is the
simulation of its action path from the start state, and its `gCost` is the
left-to-right sum of its actions' costs. -/
def GoodNode (start : WorldState) (n : ANode) : Prop :=
  n.state = applySeq start n.actions ∧ n.gCost = sumCosts n.actions

theorem expandNode_good {start : WorldState} (goal : Goal) (cur : ANode)
    (visited : List String) :
    ∀ (acts : List PAction) (openSet : List ANode),
      (∀ n ∈ openSet, GoodNode start n) → GoodNode start cur →
      ∀ n ∈ expandNode acts goal cur visited openSet, GoodNode start n := by
  intro acts
  induction acts with
  | nil => intro openSet hopen _ n hn; exact hopen n hn
  | cons a t ih =>
    intro openSet hopen hcur n hn
    have hstep : ∀ m ∈ (if canExecute a cur.state then
        (if wsString (wsApply (wsClone cur.state) a.effects) ∈ visited then openSet
         else heapPush fCost openSet
           ⟨wsApply (wsClone cur.state) a.effects, cur.actions ++ [a],
             cur.gCost + a.cost,
             (goalDistance goal (wsApply (wsClone cur.state) a.effects) : Int)⟩)
      else openSet), GoodNode start m := by
      intro m hm
      split at hm
      · split at hm
        · exact hopen m hm
        · rcases heapPush_mem fCost hm with hm2 | rfl
          · exact hopen m hm2
          · constructor
            · show wsApply (wsClone cur.state) a.effects = _
              rw [show wsClone cur.state = cur.state from rfl, hcur.1,
                ← applySeq_append_one]
            · show cur.gCost + a.cost = _
              rw [hcur.2, ← sumCosts_append_one]
      · exact hopen m hm
    exact ih _ hstep hcur n hn

theorem findLoop_good {start : WorldState} (acts : List PAction) (goal : Goal) :
    ∀ (fuel : Nat) (openSet : List ANode) (visited : List String) (plan : Plan),
      (∀ n ∈ openSet, GoodNode start n) →
      findLoop acts goal fuel openSet visited = some plan →
      wsMatches (applySeq start plan.actions) goal.desired = true ∧
        plan.cost = sumCosts plan.actions := by
  intro fuel
  induction fuel with
  | zero => intro openSet visited plan _ heq; exact absurd heq (by simp [findLoop])
  | succ fuel ih =>
    intro openSet visited plan hgood heq
    unfold findLoop at heq
    cases hpop : heapPop fCost openSet with
    | none => rw [hpop] at heq; exact absurd heq (by simp)
    | some pr =>
      obtain ⟨cur, rest⟩ := pr
      rw [hpop] at heq
      obtain ⟨hcur_mem, hrest⟩ := heapPop_mem fCost hpop
      have hcur := hgood cur hcur_mem
      have hrest_good : ∀ n ∈ rest, GoodNode start n := fun n hn =>
        hgood n (hrest n hn)
      simp only at heq
      split at heq
      · exact ih rest visited plan hrest_good heq
      · split at heq
        · rename_i hsat
          obtain rfl : (⟨cur.actions, cur.gCost⟩ : Plan) = plan :=
            Option.some.injEq _ _ ▸ heq
          refine ⟨?_, hcur.2⟩
          show wsMatches (applySeq start cur.actions) goal.desired = true
          rw [← hcur.1]
          exact hsat
        · exact ih _ _ plan
            (expandNode_good goal cur _ acts rest hrest_good hcur) heq

/-! ### Concrete planner fixtures used by counterexamples and witnesses -/

/-- Fixture action `A1 = {pre: {}, eff: {s1:true}, cost: 1}` from the spec's
two-step scenario. -/
def wA1 : PAction := ⟨"A1", "", [], [("s1", .vBool true)], 1⟩

/-- Fixture goal desiring `{s1:true}`. -/
def wGoal : Goal := ⟨"G", "", [("s1", .vBool true)], 1⟩

/-- Fixture action with one effect key and cost 1 (admissibility witness). -/
def admAct : PAction := ⟨"W", "", [], [("k", .vBool true)], 1⟩

/-- Fixture goal desiring `{k:true}` (admissibility witness). -/
def admGoal : Goal := ⟨"G", "", [("k", .vBool true)], 1⟩

/-- A zero-cost action establishing the goal key `g` in one step. -/
def zcAct : PAction := ⟨"Z", "", [], [("g", .vBool true)], 0⟩

/-- Goal desiring `{g:true}`, one step away from the empty state. -/
def zcGoal : Goal := ⟨"G", "", [("g", .vBool true)], 1⟩

/-- Tie-break fixture: `A {pre:{}, eff:{x:1}, cost:2}`. -/
def cxA : PAction := ⟨"A", "", [], [("x", .vInt 1)], 2⟩

/-- Tie-break fixture: `B {pre:{}, eff:{b:1}, cost:1}`. -/
def cxB : PAction := ⟨"B", "", [], [("b", .vInt 1)], 1⟩

/-- Tie-break fixture: `FA {pre:{x:1}, eff:{g:1}, cost:1}`. -/
def cxFA : PAction := ⟨"FA", "", [("x", .vInt 1)], [("g", .vInt 1)], 1⟩

/-- Tie-break fixture: `FB {pre:{b:1}, eff:{x:1,g:1}, cost:2}`. -/
def cxFB : PAction := ⟨"FB", "", [("b", .vInt 1)], [("x", .vInt 1), ("g", .vInt 1)], 2⟩

/-- Tie-break fixture goal desiring `{x:1, g:1}`. -/
def cxGoal : Goal := ⟨"G", "", [("x", .vInt 1), ("g", .vInt 1)], 1⟩

/-- The successor node produced by expanding the start state with `cxA`:
`fCost 3 = gCost 2 + hCost 1`. -/
def pqA : ANode := ⟨[("x", .vInt 1)], [cxA], 2, 1⟩

/-- The successor node produced by expanding the start state with `cxB`:
`fCost 3 = gCost 1 + hCost 2` — same `fCost` as `pqA`, lower `gCost`. -/
def pqB : ANode := ⟨[("b", .vInt 1)], [cxB], 1, 2⟩

/-! ### Claim C3 -/

/-- C3, counterexample.  The claim says that among open-set nodes of equal
`fCost` the one with lower `gCost` is popped first.  `PriorityQueue.Less`
compares `FCost` only, so after `FindPlan` pushes the two equal-`fCost`
successors `pqA` (gCost 2) then `pqB` (gCost 1), `heap.Pop` returns `pqA`,
the higher-`gCost` node.  Consequently on the `cx*` action set the search
finishes with plan `[A, FA]`, where the claimed gCost tie-break (and the
claimed insertion-order tie-break at the later f=3/g=3 tie) would finish
with `[B, FB]`. -/
theorem claim_C3_counterexample :
    fCost pqA = fCost pqB ∧ pqB.gCost < pqA.gCost ∧
      heapPop fCost (heapPush fCost (heapPush fCost [] pqA) pqB) =
        some (pqA, [pqB]) ∧
      (findPlan [cxA, cxB, cxFA, cxFB] [] cxGoal).map Plan.actions =
        some [cxA, cxFA] :=
  ⟨by decide, by decide, by decide, by decide⟩

/-- C3, amended.  The open set of `Planner.FindPlan` is a binary min-heap
keyed on `fCost` alone: `heap.Push` preserves the heap invariant, and
`heap.Pop` on a valid heap returns a node of minimal `fCost` and leaves a
valid heap.  Ties in `fCost` are resolved by the heap's array layout, not by
`gCost` or by insertion order.  (Determinism for fixed inputs holds because
the embedded search is a function of its inputs.) -/
theorem claim_C3_amended (l : List ANode) (x popped : ANode) (rest : List ANode)
    (h : IsMinHeap fCost l) :
    IsMinHeap fCost (heapPush fCost l x) ∧
      (heapPop fCost l = some (popped, rest) →
        (∀ y ∈ l, fCost popped ≤ fCost y) ∧ IsMinHeap fCost rest) :=
  ⟨heapPush_isMinHeap h x, fun he => ⟨heapPop_min h he, heapPop_isMinHeap h he⟩⟩

/-- C3, witness: the amended theorem applied to the singleton heap `[pqA]`
with `pqB` pushed. -/
theorem claim_C3_witness :
    IsMinHeap fCost [pqA] ∧
      (IsMinHeap fCost (heapPush fCost [pqA] pqB) ∧
        (heapPop fCost [pqA] = some (pqA, []) →
          (∀ y ∈ [pqA], fCost pqA ≤ fCost y) ∧ IsMinHeap fCost [])) :=
  have hsingle : IsMinHeap fCost [pqA] := by
    intro k hk0 hklen
    simp only [List.length_cons, List.length_nil] at hklen
    omega
  ⟨hsingle, claim_C3_amended [pqA] pqB pqA [] hsingle⟩

/-! ### Claim C4 -/

theorem distance_le_sumCosts (goalDesired : WorldState)
    (hnodup : (goalDesired.map Prod.fst).Nodup) :
    ∀ (seq : List PAction) (s : WorldState),
      (∀ a ∈ seq, (a.effects.length : Int) ≤ a.cost) →
      wsMatches (applySeq s seq) goalDesired = true →
      (wsDistance s goalDesired : Int) ≤ sumCosts seq := by
  intro seq
  induction seq with
  | nil =>
    intro s _ hsat
    have h0 : wsDistance s goalDesired = 0 := wsMatches_distance_zero hsat
    simp [h0, sumCosts]
  | cons a t ih =>
    intro s hcosts hsat
    have hsat2 : wsMatches (applySeq (wsApply s a.effects) t) goalDesired = true := hsat
    have h2 := ih (wsApply s a.effects)
      (fun b hb => hcosts b (List.mem_cons_of_mem a hb)) hsat2
    have h1 := wsDistance_le_apply s goalDesired a.effects hnodup
    have h3 := hcosts a (List.mem_cons_self a t)
    rw [sumCosts_cons]
    have h1' : (wsDistance s goalDesired : Int) ≤
        (wsDistance (wsApply s a.effects) goalDesired : Int) +
          (a.effects.length : Int) := by exact_mod_cast h1
    omega

/-- C4, counterexample.  The claim asserts admissibility of
`h(state) = state.Distance(goal.desired)` even with zero-cost actions: the
zero-cost action `zcAct` transforms the empty state into one satisfying
`zcGoal` with total cost 0, yet `h = 1`, so `h` exceeds the cost of a valid
goal-reaching action sequence. -/
theorem claim_C4_counterexample :
    seqOK [] [zcAct] = true ∧
      wsMatches (applySeq [] [zcAct]) zcGoal.desired = true ∧
      ¬ ((goalDistance zcGoal [] : Int) ≤ sumCosts [zcAct]) :=
  ⟨by decide, by decide, by decide⟩

/-- C4, amended.  The heuristic `h(state) = state.Distance(goal.desired)` is
non-negative, and it is admissible provided every action in the sequence has
cost at least the number of keys in its effects fragment (each application
can decrease the distance by at most the number of effect keys): for every
applicable action sequence transforming `s` into a state satisfying the
goal, `h(s)` is at most the sum of the sequence's costs.  Without that cost
floor — in particular with zero-cost actions — admissibility fails. -/
theorem claim_C4_amended (s : WorldState) (goal : Goal) (seq : List PAction)
    (hnodup : (goal.desired.map Prod.fst).Nodup)
    (hcosts : ∀ a ∈ seq, (a.effects.length : Int) ≤ a.cost)
    (hok : seqOK s seq = true)
    (hsat : wsMatches (applySeq s seq) goal.desired = true) :
    0 ≤ (goalDistance goal s : Int) ∧ (goalDistance goal s : Int) ≤ sumCosts seq :=
  ⟨Int.natCast_nonneg _, distance_le_sumCosts goal.desired hnodup seq s hcosts hsat⟩

/-- C4, witness: the amended theorem applied to the one-action sequence
`[admAct]` (one effect key, cost 1) from the empty state. -/
theorem claim_C4_witness :
    ((admGoal.desired.map Prod.fst).Nodup ∧
        (∀ a ∈ [admAct], (a.effects.length : Int) ≤ a.cost) ∧
        seqOK [] [admAct] = true ∧
        wsMatches (applySeq [] [admAct]) admGoal.desired = true) ∧
      0 ≤ (goalDistance admGoal [] : Int) ∧
        (goalDistance admGoal [] : Int) ≤ sumCosts [admAct] :=
  ⟨⟨by decide, by decide, by decide, by decide⟩,
    claim_C4_amended [] admGoal [admAct] (by decide) (by decide) (by decide)
      (by decide)⟩

/-! ### Claim C5 -/

/-- C5, confirmed.  Every plan returned by `Planner.FindPlan(current, goal)`
is sound: applying the returned actions' effects fragments in order to the
start state yields a state matching `goal.desired`, and the plan's `Cost` is
the sum of the returned actions' costs. -/
theorem claim_C5_plan_sound (acts : List PAction) (current : WorldState)
    (goal : Goal) (plan : Plan) (h : findPlan acts current goal = some plan) :
    wsMatches (applySeq current plan.actions) goal.desired = true ∧
      plan.cost = sumCosts plan.actions := by
  unfold findPlan at h
  split at h
  · rename_i hsat
    obtain rfl : (⟨[], 0⟩ : Plan) = plan := Option.some.injEq _ _ ▸ h
    exact ⟨hsat, rfl⟩
  · apply findLoop_good acts goal 1000 _ [] plan _ h
    intro n hn
    rcases heapPush_mem fCost hn with hn2 | rfl
    · exact absurd hn2 (List.not_mem_nil n)
    · exact ⟨rfl, rfl⟩

/-- C5, witness: the theorem applied to the concrete run
`findPlan [wA1] {} {s1:true} = some ⟨[wA1], 1⟩`. -/
theorem claim_C5_witness :
    findPlan [wA1] [] wGoal = some ⟨[wA1], 1⟩ ∧
      (wsMatches (applySeq [] [wA1]) wGoal.desired = true ∧
        (1 : Int) = sumCosts [wA1]) :=
  ⟨by decide, claim_C5_plan_sound [wA1] [] wGoal ⟨[wA1], 1⟩ (by decide)⟩

/-! ### The hierarchical planner (`HierarchicalPlanner.planRecursive`) -/

/-- Embedding of `HierarchicalPlan`: a tree node carrying its goal, ordered
subplans, direct actions and depth.  Go's `nil` versus empty slices both
behave as the empty list in every operation modelled here (`IsAtomic`,
iteration, `BuildGraphFromPlan`'s `!= nil` guard around an append loop), so
both are embedded as `[]`. -/
inductive HPlan where
  | mk (goal : Goal) (subplans : List HPlan) (actions : List PAction) (depth : Nat)

/-- The goal of a plan node. -/
def HPlan.goal : HPlan → Goal
  | .mk g _ _ _ => g

/-- The ordered subplans of a plan node. -/
def HPlan.subplans : HPlan → List HPlan
  | .mk _ s _ _ => s

/-- The direct actions of a plan node. -/
def HPlan.actions : HPlan → List PAction
  | .mk _ _ a _ => a

/-- The depth of a plan node. -/
def HPlan.depth : HPlan → Nat
  | .mk _ _ _ d => d

/-- Embedding of `HierarchicalPlan.IsAtomic`: no subplans. -/
def HPlan.isAtomicPlan (hp : HPlan) : Bool := hp.subplans.isEmpty

/-- Embedding of the `GoalRefiner` interface: `IsAtomic` and `Refine`
(`Refine` returns subgoals or an error; a `nil` result is the empty list). -/
structure Refiner where
  isAtomic : Goal → WorldState → Bool
  refine : Goal → WorldState → Except String (List Goal)

/-- Embedding of `HierarchicalPlanner.planRecursive`.  The fuel bounds the
recursion depth structurally; since each recursive call increases `depth` by
one and the `depth > maxDepth` check fails first, any fuel exceeding
`maxDepth + 1` gives exactly the Go semantics.  The subgoal loop threads the
working state by applying, in order, the effects of the subplan's **direct**
`Actions` only (`subplan.Actions` is nil for composite subplans), exactly as
the source does. -/
def planRec (acts : List PAction) (r : Refiner) (maxDepth : Nat) :
    Nat → WorldState → Goal → Nat → Except String HPlan
  | 0, _, _, _ => .error "planner recursion fuel exhausted"
  | fuel + 1, current, goal, depth =>
    if maxDepth < depth then
      .error ("maximum planning depth exceeded: " ++ toString maxDepth)
    else if goalIsSatisfied goal current then .ok (.mk goal [] [] depth)
    else if r.isAtomic goal current then
      match findPlan acts current goal with
      | none => .error ("no action plan found for atomic goal: " ++ goal.name)
      | some p => .ok (.mk goal [] p.actions depth)
    else
      match r.refine goal current with
      | .error e => .error ("failed to refine goal " ++ goal.name ++ ": " ++ e)
      | .ok subgoals =>
        if subgoals.isEmpty then
          .error ("goal refinement produced no subgoals: " ++ goal.name)
        else
          match subgoals.foldl
            (fun acc sg =>
              match acc with
              | .error e => .error e
              | .ok (subs, working) =>
                match planRec acts r maxDepth fuel working sg (depth + 1) with
                | .error e =>
                  .error ("failed to plan subgoal " ++ sg.name ++ ": " ++ e)
                | .ok sub => .ok (subs ++ [sub], applySeq working sub.actions))
            (Except.ok ([], wsClone current)) with
          | .error e => .error e
          | .ok (subs, _) => .ok (.mk goal subs [] depth)

/-- Embedding of `HierarchicalPlanner.PlanHierarchical` (depth starts at 0;
the fuel `maxDepth + 2` exceeds the reachable recursion depth). -/
def planHierarchical (acts : List PAction) (r : Refiner) (maxDepth : Nat)
    (current : WorldState) (goal : Goal) : Except String HPlan :=
  planRec acts r maxDepth (maxDepth + 2) current goal 0

/-! ### Claim C2 fixtures: a nested decomposition -/

/-- Leaf goal `G1a` desiring `{a:1}`. -/
def thrG1a : Goal := ⟨"G1a", "", [("a", .vInt 1)], 1⟩

/-- Intermediate goal `G1` desiring `{a:1}`; refines into `[G1a]`. -/
def thrG1 : Goal := ⟨"G1", "", [("a", .vInt 1)], 1⟩

/-- Sibling goal `G2`, also desiring `{a:1}`. -/
def thrG2 : Goal := ⟨"G2", "", [("a", .vInt 1)], 1⟩

/-- Root goal; refines into `[G1, G2]`. -/
def thrRoot : Goal := ⟨"Root", "", [("a", .vInt 1)], 1⟩

/-- The only available action: `{pre:{}, eff:{a:1}, cost:1}`. -/
def thrAct : PAction := ⟨"A1", "", [], [("a", .vInt 1)], 1⟩

/-- Name-keyed refiner: `Root → [G1, G2]`, `G1 → [G1a]`, everything else
atomic (the shape of the repository's own `MockGoalRefiner`). -/
def thrRefiner : Refiner :=
  ⟨fun g _ => !(g.name == "Root" || g.name == "G1"),
   fun g _ =>
     if g.name == "Root" then .ok [thrG1, thrG2]
     else if g.name == "G1" then .ok [thrG1a]
     else .ok []⟩

/-- C2, evaluation of the code at the failing input.  Subgoal `G1` returns a
composite subplan whose nested leaf carries `A1` (effects `{a:1}`), but the
threading loop applies only `subplan.Actions` — nil for a composite — so the
working state stays `{}` and sibling `G2` is re-planned from scratch,
producing `[A1]` again.  The last conjunct shows that simulating the
subplan's leaf effects (as the spec and the claim require) would have
satisfied `G2` outright, which by the `IsSatisfied` short-circuit would
yield an empty subplan for `G2`. -/
theorem claim_C2_code_eval :
    (planHierarchical [thrAct] thrRefiner 5 [] thrRoot).toOption.map
        (fun p => p.subplans.map (fun s => (s.goal.name, s.actions))) =
      some [("G1", []), ("G2", [thrAct])] ∧
    (planHierarchical [thrAct] thrRefiner 5 [] thrRoot).toOption.map
        (fun p => p.subplans.map (fun s =>
          s.subplans.map (fun ss => (ss.goal.name, ss.actions)))) =
      some [[("G1a", [thrAct])], []] ∧
    wsMatches (applySeq [] [thrAct]) thrG2.desired = true :=
  ⟨by decide, by decide, by decide⟩

/-! ### The persisted plan graph (`PlanGraph`, `BuildGraphFromPlan`) -/

mutual

/-- Number of nodes of a hierarchical plan tree (used as a structural fuel
bound for the graph lowering; it strictly exceeds the tree height). -/
def planSize : HPlan → Nat
  | .mk _ subs _ _ => 1 + planSizeList subs

/-- Total size of a forest of hierarchical plans. -/
def planSizeList : List HPlan → Nat
  | [] => 0
  | s :: rest => planSize s + planSizeList rest

end

theorem planSize_pos (hp : HPlan) : 0 < planSize hp := by
  cases hp with
  | mk g s a d => unfold planSize; omega

theorem planSize_le_of_mem {sub : HPlan} :
    ∀ {subs : List HPlan}, sub ∈ subs → planSize sub ≤ planSizeList subs := by
  intro subs
  induction subs with
  | nil => intro h; exact absurd h (List.not_mem_nil sub)
  | cons s t ih =>
    intro h
    unfold planSizeList
    rcases List.mem_cons.mp h with rfl | h2
    · omega
    · have := ih h2
      omega

theorem planSize_lt_of_mem {sub : HPlan} {g : Goal} {subs : List HPlan}
    {a : List PAction} {d : Nat} (h : sub ∈ subs) :
    planSize sub < planSize (.mk g subs a d) := by
  have h1 := planSize_le_of_mem h
  have h2 : planSize (.mk g subs a d) = 1 + planSizeList subs := rfl
  rw [h2]
  omega

/-- Embedding of `NodeStatus`. -/
inductive NStatus where
  | pending
  | running
  | completed
  | failed
  | skipped
deriving DecidableEq, Inhabited

/-- Embedding of `NodeResult` (`StateChanges` is a map that may be absent). -/
structure NResult where
  success : Bool
  errorMessage : String
  stateChanges : Option WorldState
deriving DecidableEq

/-- Embedding of `GraphNode`. -/
structure GNode where
  id : String
  goalName : String
  goalDesc : String
  desiredState : WorldState
  parentId : String
  childIds : List String
  actionNames : List String
  isAtomic : Bool
  depth : Nat
  status : NStatus
  result : Option NResult
deriving DecidableEq, Inhabited

/-- Embedding of `GraphMetadata` (`CreatedAt` is presentation-only and
dropped). -/
structure GraphMeta where
  agentId : String
  totalNodes : Nat
  maxDepth : Nat
deriving DecidableEq

/-- Embedding of `PlanGraph` (the `Nodes` map as an association list with
unique keys). -/
structure PlanGraph where
  rootNodeId : String
  nodes : List (String × GNode)
  metadata : GraphMeta
deriving DecidableEq

/-- Embedding of `calculateMaxDepth`: maximum node depth, 0 when empty. -/
def calculateMaxDepth (nodes : List (String × GNode)) : Nat :=
  nodes.foldl (fun m kv => max m kv.2.depth) 0

/-- Embedding of the recursive `buildNode` closure of `BuildGraphFromPlan`:
allocate `node_<counter>` by pre-order traversal, record action names for
atomic nodes and child ids for composite ones, and insert each node after
its children (map insertion order is irrelevant to lookups).  Structural
fuel bounds the tree recursion; `buildGraphFromPlan` supplies `sizeOf hp`,
which always exceeds the tree height.  The result is
`(next counter, accumulated nodes, this node's id)`. -/
def buildNodeF : Nat → HPlan → String → Nat → Nat × List (String × GNode) × String
  | 0, _, _, c => (c, [], "")
  | fuel + 1, hp, parentId, counter =>
    let c1 := counter + 1
    let nodeId := "node_" ++ toString c1
    let actionNames :=
      if hp.isAtomicPlan then hp.actions.map PAction.name else []
    let res := hp.subplans.foldl
      (fun acc sub =>
        let r := buildNodeF fuel sub nodeId acc.1
        (r.1, acc.2.1 ++ r.2.1, acc.2.2 ++ [r.2.2]))
      (c1, ([] : List (String × GNode)), ([] : List String))
    let node : GNode :=
      ⟨nodeId, hp.goal.name, hp.goal.description, hp.goal.desired, parentId,
        res.2.2, actionNames, hp.isAtomicPlan, hp.depth, .pending, none⟩
    (res.1, res.2.1 ++ [(nodeId, node)], nodeId)

/-- Embedding of `BuildGraphFromPlan`. -/
def buildGraphFromPlan (hp : HPlan) (agentId : String) : PlanGraph :=
  let r := buildNodeF (planSize hp) hp "" 0
  ⟨r.2.2, r.2.1, ⟨agentId, r.1, calculateMaxDepth r.2.1⟩⟩

/-! ### Claim C8 -/

/-- The per-node shape invariant actually established by `buildNode`. -/
def NodeShapeOk (n : GNode) : Prop :=
  (n.isAtomic = true ↔ n.childIds = []) ∧ (n.actionNames ≠ [] → n.isAtomic = true)

theorem buildNodeF_length_childIds (fuel : Nat) (parentId : String) :
    ∀ (subs : List HPlan) (init : Nat × List (String × GNode) × List String),
      (subs.foldl
        (fun acc sub =>
          let r := buildNodeF fuel sub parentId acc.1
          (r.1, acc.2.1 ++ r.2.1, acc.2.2 ++ [r.2.2]))
        init).2.2.length = init.2.2.length + subs.length := by
  intro subs
  induction subs with
  | nil => intro init; rfl
  | cons s t ih =>
    intro init
    rw [List.foldl_cons, ih]
    simp
    omega

theorem buildNodeF_shape :
    ∀ (fuel : Nat) (hp : HPlan) (parentId : String) (counter : Nat),
      planSize hp ≤ fuel →
      ∀ p ∈ (buildNodeF fuel hp parentId counter).2.1, NodeShapeOk p.2 := by
  intro fuel
  induction fuel with
  | zero =>
    intro hp parentId counter hsz
    have := planSize_pos hp
    omega
  | succ fuel ih =>
    intro hp parentId counter hsz p hp_mem
    have hsubs : ∀ sub ∈ hp.subplans, planSize sub ≤ fuel := by
      intro sub hsub
      cases hp with
      | mk g s a d =>
        simp only [HPlan.subplans] at hsub
        have h1 := planSize_lt_of_mem (g := g) (a := a) (d := d) hsub
        omega
    -- facts about the children fold accumulated from an arbitrary init
    have hfold : ∀ (subs : List HPlan), (∀ sub ∈ subs, planSize sub ≤ fuel) →
        ∀ (init : Nat × List (String × GNode) × List String),
        (∀ q ∈ init.2.1, NodeShapeOk q.2) →
        ∀ q ∈ (subs.foldl
          (fun acc sub =>
            let r := buildNodeF fuel sub ("node_" ++ toString (counter + 1)) acc.1
            (r.1, acc.2.1 ++ r.2.1, acc.2.2 ++ [r.2.2]))
          init).2.1, NodeShapeOk q.2 := by
      intro subs
      induction subs with
      | nil => intro _ init hinit q hq; exact hinit q hq
      | cons s t iht =>
        intro hsz2 init hinit
        rw [List.foldl_cons]
        apply iht (fun sub hsub => hsz2 sub (List.mem_cons_of_mem s hsub))
        intro q hq
        rcases List.mem_append.mp hq with hq1 | hq2
        · exact hinit q hq1
        · exact ih s _ _ (hsz2 s (List.mem_cons_self s t)) q hq2
    unfold buildNodeF at hp_mem
    rcases List.mem_append.mp hp_mem with hmem | hmem
    · exact hfold hp.subplans hsubs _ (by intro q hq; exact absurd hq (List.not_mem_nil q)) p hmem
    · -- p is the node built for hp itself
      have hp_eq : p.2 = ⟨"node_" ++ toString (counter + 1), hp.goal.name,
          hp.goal.description, hp.goal.desired, parentId,
          (hp.subplans.foldl
            (fun acc sub =>
              let r := buildNodeF fuel sub ("node_" ++ toString (counter + 1)) acc.1
              (r.1, acc.2.1 ++ r.2.1, acc.2.2 ++ [r.2.2]))
            (counter + 1, ([] : List (String × GNode)), ([] : List String))).2.2,
          (if hp.isAtomicPlan then hp.actions.map PAction.name else []),
          hp.isAtomicPlan, hp.depth, .pending, none⟩ := by
        have := List.mem_singleton.mp hmem
        rw [this]
      rw [hp_eq]
      constructor
      · constructor
        · intro hat
          simp only
          have hlen := buildNodeF_length_childIds fuel
            ("node_" ++ toString (counter + 1)) hp.subplans
            (counter + 1, ([] : List (String × GNode)), ([] : List String))
          have hempty : hp.subplans = [] := by
            cases h : hp.subplans with
            | nil => rfl
            | cons a t =>
              exfalso
              unfold HPlan.isAtomicPlan at hat
              rw [h] at hat
              simp at hat
          rw [hempty]
          rfl
        · intro hch
          simp only at hch
          unfold HPlan.isAtomicPlan
          cases h : hp.subplans with
          | nil => rfl
          | cons a t =>
            exfalso
            have hlen := buildNodeF_length_childIds fuel
              ("node_" ++ toString (counter + 1)) hp.subplans
              (counter + 1, ([] : List (String × GNode)), ([] : List String))
            rw [hch] at hlen
            rw [h] at hlen
            simp at hlen
      · intro hnames
        simp only at hnames
        by_cases hat : hp.isAtomicPlan
        · exact hat
        · exfalso
          rw [if_neg hat] at hnames
          exact hnames rfl

/-- C8, counterexample.  An atomic plan node carrying zero actions (the
shape `planRecursive` produces for an already-satisfied goal) lowers to a
graph node with `isAtomic = true` and empty `actionNames`, refuting the
direction "atomic implies `actionNames` non-empty". -/
theorem claim_C8_counterexample :
    (lookupA (buildGraphFromPlan (.mk thrG1a [] [] 0) "agent").nodes
        "node_1").map (fun n => (n.isAtomic, n.actionNames, n.childIds)) =
      some (true, [], []) :=
  by decide

/-- C8, amended.  For every graph produced by `BuildGraphFromPlan`, each
node is atomic iff its `childIds` list is empty, and a node with non-empty
`actionNames` is atomic; the converse fails for atomic plan nodes carrying
zero actions (e.g. the node for an already-satisfied goal), whose
`actionNames` is empty. -/
theorem claim_C8_amended (hp : HPlan) (agentId : String) :
    ∀ p ∈ (buildGraphFromPlan hp agentId).nodes,
      (p.2.isAtomic = true ↔ p.2.childIds = []) ∧
        (p.2.actionNames ≠ [] → p.2.isAtomic = true) := by
  intro p hp_mem
  exact buildNodeF_shape (planSize hp) hp "" 0 (le_refl _) p hp_mem

/-- Two-level plan fixture: `Root` composite over a `G1a` leaf with one
action. -/
def hpW : HPlan := .mk thrRoot [.mk thrG1a [] [thrAct] 1] [] 0

/-- C8, witness: the amended theorem applied to the concrete two-level plan
`hpW`, at the entry of its root node. -/
theorem claim_C8_witness :
    (buildGraphFromPlan hpW "agent").nodes.getD 1 ("", default) ∈
        (buildGraphFromPlan hpW "agent").nodes ∧
      ((((buildGraphFromPlan hpW "agent").nodes.getD 1 ("", default)).2.isAtomic
            = true ↔
          ((buildGraphFromPlan hpW "agent").nodes.getD 1
            ("", default)).2.childIds = []) ∧
        (((buildGraphFromPlan hpW "agent").nodes.getD 1
            ("", default)).2.actionNames ≠ [] →
          ((buildGraphFromPlan hpW "agent").nodes.getD 1
            ("", default)).2.isAtomic = true)) :=
  have hmem : (buildGraphFromPlan hpW "agent").nodes.getD 1 ("", default) ∈
      (buildGraphFromPlan hpW "agent").nodes := by decide
  ⟨hmem, claim_C8_amended hpW "agent" _ hmem⟩

/-! ### The graph executor (`GraphExecutor`)

The executor mutates the run's world state in place and persists status
updates through `GraphPersistence`.  The embedding threads the persisted
graph explicitly and models the world state as a numbered cell of a `Store`
(a list of world states), so that the aliasing between the caller's state
and the executor's working state is observable: an `Action.Execute` call
becomes a function from a world state to a new world state plus an optional
error message, applied to the contents of the executor's cell.
`LoadNodeContext` reads the node from the persisted graph (node context
files are rewritten on every `SaveGraph`, so they always agree with the
graph), `UpdateNodeStatus` rewrites the node's status and result in place,
and I/O failures of the persistence layer are outside the embedding (the
executor ignores status-write errors and the model makes them impossible).
The inter-action sleep and the unused `ctx` parameter have no observable
effect and are dropped. -/

/-- Executor-side behaviour of a registered action: the (possibly partial)
mutation of the world state, plus `none` on success or an error message. -/
abbrev ExecFun := WorldState → WorldState × Option String

/-- The store of world-state cells; `Execute`'s `Clone` allocates a new
cell. -/
abbrev Store := List WorldState

/-- Read a cell of the store. -/
def storeGet (s : Store) (r : Nat) : WorldState := s.getD r default

/-- Overwrite a cell of the store (in-place mutation of the world state). -/
def storeSet (s : Store) (r : Nat) (w : WorldState) : Store := s.set r w

/-- Embedding of `UpdateNodeStatus` on the node map: rewrite the status and
result of the addressed node, leaving everything else unchanged (a missing
node is left unchanged; the executor ignores update errors). -/
def updNodes : List (String × GNode) → String → NStatus → Option NResult →
    List (String × GNode)
  | [], _, _, _ => []
  | kv :: t, id, st, res =>
    if kv.1 = id then (kv.1, { kv.2 with status := st, result := res }) :: t
    else kv :: updNodes t id st res

/-- Embedding of `GraphPersistence.UpdateNodeStatus` at graph level. -/
def updateNodeStatus (g : PlanGraph) (id : String) (st : NStatus)
    (res : Option NResult) : PlanGraph :=
  ⟨g.rootNodeId, updNodes g.nodes id st res, g.metadata⟩

/-- Embedding of `GraphExecutor.executeAtomicNode`: look up each action name
in the registry in order (failing with `action not found`), execute it
against the state cell, and stop at the first error. -/
def executeAtomicNode (tbl : List (String × ExecFun)) :
    List String → Store → Nat → Store × Option String
  | [], store, _ => (store, none)
  | nm :: rest, store, ref =>
    match lookupA tbl nm with
    | none => (store, some ("action not found: " ++ nm))
    | some ex =>
      let r := ex (storeGet store ref)
      let store2 := storeSet store ref r.1
      match r.2 with
      | some msg => (store2, some ("action " ++ nm ++ " failed: " ++ msg))
      | none => executeAtomicNode tbl rest store2 ref

/-- The status-update epilogue of `GraphExecutor.executeNode`: on an
execution error mark the node `failed` with the error message and propagate
it; on success record the still-unsatisfied desired entries as
`StateChanges` (the source compares each desired value against the current
state) and mark the node `completed`. -/
def finishNode (nodeId : String) (node : GNode) (ref : Nat)
    (r : PlanGraph × Store × Option String) : PlanGraph × Store × Option String :=
  match r.2.2 with
  | some msg =>
    (updateNodeStatus r.1 nodeId .failed (some ⟨false, msg, none⟩),
      r.2.1, some msg)
  | none =>
    let changes := node.desiredState.filter
      (fun kv => !(wsGet (storeGet r.2.1 ref) kv.1 == some kv.2))
    (updateNodeStatus r.1 nodeId .completed (some ⟨true, "", some changes⟩),
      r.2.1, none)

/-- Embedding of `GraphExecutor.executeNode` (with the composite-children
loop of `executeCompositeNode` inlined as a fold, preserving its
first-error short-circuit and `child node <id> failed` wrapping, and the
final status update factored into `finishNode`).  The fuel bounds the
recursion depth structurally; any fuel exceeding the height of the
(acyclic) persisted graph gives exactly the Go semantics. -/
def executeNode (tbl : List (String × ExecFun)) :
    Nat → PlanGraph → String → Store → Nat → PlanGraph × Store × Option String
  | 0, g, _, store, _ => (g, store, some "node recursion fuel exhausted")
  | fuel + 1, g, nodeId, store, ref =>
    match lookupA g.nodes nodeId with
    | none => (g, store, some ("failed to load node context: " ++ nodeId))
    | some node =>
      let g1 := updateNodeStatus g nodeId .running none
      if wsMatches (storeGet store ref) node.desiredState then
        (updateNodeStatus g1 nodeId .skipped (some ⟨true, "", none⟩), store, none)
      else
        finishNode nodeId node ref
          (if node.isAtomic then
            let ra := executeAtomicNode tbl node.actionNames store ref
            (g1, ra.1, ra.2)
          else
            node.childIds.foldl
              (fun acc c =>
                match acc.2.2 with
                | some _ => acc
                | none =>
                  let rc := executeNode tbl fuel acc.1 c acc.2.1 ref
                  match rc.2.2 with
                  | some msg =>
                    (rc.1, rc.2.1, some ("child node " ++ c ++ " failed: " ++ msg))
                  | none => rc)
              (g1, store, none))

/-- Embedding of `GraphExecutor.Execute`: clone the caller's world state
into a fresh cell and execute from the root against the clone. -/
def graphExecute (tbl : List (String × ExecFun)) (fuel : Nat) (g : PlanGraph)
    (store : Store) (ref : Nat) : PlanGraph × Store × Option String :=
  executeNode tbl fuel g g.rootNodeId (store ++ [storeGet store ref]) store.length

/-- Embedding of the per-status counters of `GetGraphStatus`. -/
def countStatus (g : PlanGraph) (st : NStatus) : Nat :=
  g.nodes.countP (fun kv => kv.2.status == st)

/-! ### What a successful execution does to node statuses -/

/-- Entry-wise relation between a node map before and after a successful
execution step: the key is unchanged and the node is either untouched or has
been driven to a terminal success status. -/
def NodeRel (p q : String × GNode) : Prop :=
  q.1 = p.1 ∧ (q.2 = p.2 ∨ q.2.status = .completed ∨ q.2.status = .skipped)

theorem nodeRel_refl (p : String × GNode) : NodeRel p p := ⟨rfl, Or.inl rfl⟩

theorem forall₂_nodeRel_refl (l : List (String × GNode)) :
    List.Forall₂ NodeRel l l := by
  induction l with
  | nil => exact List.Forall₂.nil
  | cons p t ih => exact List.Forall₂.cons (nodeRel_refl p) ih

theorem forall₂_nodeRel_trans :
    ∀ {a b c : List (String × GNode)}, List.Forall₂ NodeRel a b →
      List.Forall₂ NodeRel b c → List.Forall₂ NodeRel a c := by
  intro a b c hab
  induction hab generalizing c with
  | nil => intro hbc; cases hbc; exact List.Forall₂.nil
  | cons hpq ht ih =>
    intro hbc
    cases hbc with
    | cons hqr htr =>
      refine List.Forall₂.cons ⟨hqr.1.trans hpq.1, ?_⟩ (ih htr)
      rcases hqr.2 with he | hs | hs
      · rw [he]; exact hpq.2
      · exact Or.inr (Or.inl hs)
      · exact Or.inr (Or.inr hs)

theorem forall₂_nodeRel_mem_right {a b : List (String × GNode)}
    (h : List.Forall₂ NodeRel a b) : ∀ q ∈ b, ∃ p ∈ a, NodeRel p q := by
  induction h with
  | nil => intro q hq; exact absurd hq (List.not_mem_nil q)
  | cons hpq ht ih =>
    intro q hq
    rcases List.mem_cons.mp hq with rfl | hq2
    · exact ⟨_, List.mem_cons_self _ _, hpq⟩
    · obtain ⟨p, hp, hr⟩ := ih q hq2
      exact ⟨p, List.mem_cons_of_mem _ hp, hr⟩

/-- Setting a node first to `running` and then (possibly after other keys
were driven to terminal statuses) to a terminal success status relates the
original map to the final one. -/
theorem forall₂_upd_compose :
    ∀ (a b : List (String × GNode)) (id : String) (st : NStatus)
      (res : Option NResult), (st = .completed ∨ st = .skipped) →
      List.Forall₂ NodeRel (updNodes a id .running none) b →
      List.Forall₂ NodeRel a (updNodes b id st res) := by
  intro a
  induction a with
  | nil =>
    intro b id st res hst h
    cases h
    exact List.Forall₂.nil
  | cons p at2 ih =>
    intro b id st res hst h
    by_cases hp : p.1 = id
    · rw [show updNodes (p :: at2) id .running none =
          (p.1, { p.2 with status := .running, result := none }) :: at2 by
        simp [updNodes, hp]] at h
      cases h with
      | cons hpq ht =>
        rename_i q bt
        have hq : q.1 = id := by rw [hpq.1, hp]
        rw [show updNodes (q :: bt) id st res =
            (q.1, { q.2 with status := st, result := res }) :: bt by
          simp [updNodes, hq]]
        refine List.Forall₂.cons ⟨hpq.1, ?_⟩ ht
        rcases hst with rfl | rfl
        · exact Or.inr (Or.inl rfl)
        · exact Or.inr (Or.inr rfl)
    · rw [show updNodes (p :: at2) id .running none =
          p :: updNodes at2 id .running none by simp [updNodes, hp]] at h
      cases h with
      | cons hpq ht =>
        rename_i q bt
        have hq : ¬ q.1 = id := by rw [hpq.1]; exact hp
        rw [show updNodes (q :: bt) id st res = q :: updNodes bt id st res by
          simp [updNodes, hq]]
        exact List.Forall₂.cons hpq (ih bt id st res hst ht)

theorem finishNode_rel {gnodes : List (String × GNode)} {id : String}
    (node : GNode) (ref : Nat) (r : PlanGraph × Store × Option String)
    (hrel : r.2.2 = none →
      List.Forall₂ NodeRel (updNodes gnodes id .running none) r.1.nodes) :
    (finishNode id node ref r).2.2 = none →
    List.Forall₂ NodeRel gnodes (finishNode id node ref r).1.nodes := by
  cases hr : r.2.2 with
  | some msg =>
    intro h
    unfold finishNode at h
    rw [hr] at h
    exact absurd h (by simp)
  | none =>
    intro _
    unfold finishNode
    rw [hr]
    exact forall₂_upd_compose gnodes _ id .completed _ (Or.inl rfl) (hrel hr)

theorem executeNode_success_rel (tbl : List (String × ExecFun)) :
    ∀ (fuel : Nat) (g : PlanGraph) (id : String) (store : Store) (ref : Nat),
      (executeNode tbl fuel g id store ref).2.2 = none →
      List.Forall₂ NodeRel g.nodes (executeNode tbl fuel g id store ref).1.nodes := by
  intro fuel
  induction fuel with
  | zero => intro g id store ref h; exact absurd h (by simp [executeNode])
  | succ fuel ih =>
    intro g id store ref h
    have hfold : ∀ (children : List String)
        (acc : PlanGraph × Store × Option String),
        (acc.2.2 = none → List.Forall₂ NodeRel
          (updNodes g.nodes id .running none) acc.1.nodes) →
        ((children.foldl
          (fun acc c =>
            match acc.2.2 with
            | some _ => acc
            | none =>
              let rc := executeNode tbl fuel acc.1 c acc.2.1 ref
              match rc.2.2 with
              | some msg =>
                (rc.1, rc.2.1, some ("child node " ++ c ++ " failed: " ++ msg))
              | none => rc)
          acc).2.2 = none →
          List.Forall₂ NodeRel (updNodes g.nodes id .running none)
            (children.foldl
              (fun acc c =>
                match acc.2.2 with
                | some _ => acc
                | none =>
                  let rc := executeNode tbl fuel acc.1 c acc.2.1 ref
                  match rc.2.2 with
                  | some msg =>
                    (rc.1, rc.2.1, some ("child node " ++ c ++ " failed: " ++ msg))
                  | none => rc)
              acc).1.nodes) := by
      intro children
      induction children with
      | nil => intro acc hacc; exact hacc
      | cons c rest ihc =>
        intro acc hacc
        rw [List.foldl_cons]
        apply ihc
        cases hstat : acc.2.2 with
        | some e =>
          intro h2
          have h3 : acc.2.2 = none := h2
          rw [hstat] at h3
          exact absurd h3 (by simp)
        | none =>
          have hrel := hacc hstat
          intro h2
          cases hrc : (executeNode tbl fuel acc.1 c acc.2.1 ref).2.2 with
          | some msg =>
            simp only [hrc] at h2
            exact absurd h2 (by simp)
          | none =>
            simp only [hrc]
            exact forall₂_nodeRel_trans hrel (ih acc.1 c acc.2.1 ref hrc)
    revert h
    show (executeNode tbl (fuel + 1) g id store ref).2.2 = none →
      List.Forall₂ NodeRel g.nodes (executeNode tbl (fuel + 1) g id store ref).1.nodes
    unfold executeNode
    cases hl : lookupA g.nodes id with
    | none => intro h; exact absurd h (by simp)
    | some node =>
      simp only
      split
      · intro _
        exact forall₂_upd_compose g.nodes _ id .skipped _ (Or.inr rfl)
          (forall₂_nodeRel_refl _)
      · refine finishNode_rel node ref _ ?_
        split
        · exact fun _ => forall₂_nodeRel_refl _
        · exact hfold node.childIds
            (updateNodeStatus g id .running none, store, none)
            (fun _ => forall₂_nodeRel_refl _)

/-! ### Executor fixtures (the spec's three-node hierarchical scenario) -/

/-- Registry with the two leaf actions of the spec's scenario 4: `A1` sets
`a:1`, `A2` sets `b:2`. -/
def exTbl : List (String × ExecFun) :=
  [("A1", fun ws => (wsApply ws [("a", .vInt 1)], none)),
   ("A2", fun ws => (wsApply ws [("b", .vInt 2)], none))]

/-- Goal of the first leaf: `{a:1}`. -/
def exG1 : Goal := ⟨"AtomicGoal1", "", [("a", .vInt 1)], 1⟩

/-- Goal of the second leaf: `{b:2}`. -/
def exG2 : Goal := ⟨"AtomicGoal2", "", [("b", .vInt 2)], 1⟩

/-- Root goal `{a:1, b:2}`. -/
def exRoot : Goal := ⟨"RootGoal", "", [("a", .vInt 1), ("b", .vInt 2)], 10⟩

/-- Hierarchical plan: composite root over two atomic leaves. -/
def exPlan : HPlan :=
  .mk exRoot
    [.mk exG1 [] [⟨"A1", "", [], [("a", .vInt 1)], 1⟩] 1,
     .mk exG2 [] [⟨"A2", "", [], [("b", .vInt 2)], 1⟩] 1] [] 0

/-- The persisted three-node graph (`node_1` root, `node_2`/`node_3`
leaves), all statuses `pending`. -/
def exGraph : PlanGraph := buildGraphFromPlan exPlan "agent"

/-- Single-node fixture goal `{d:true}`. -/
def leafGoal : Goal := ⟨"StatusTest", "", [("d", .vBool true)], 1⟩

/-- Single atomic root plan. -/
def leafPlan : HPlan := .mk leafGoal [] [⟨"DoIt", "", [], [("d", .vBool true)], 1⟩] 0

/-- Its one-node persisted graph. -/
def leafGraph : PlanGraph := buildGraphFromPlan leafPlan "agent"

/-- The same graph after a completed run: the root is `completed` with a
recorded result. -/
def leafDone : PlanGraph :=
  updateNodeStatus leafGraph "node_1" .completed
    (some ⟨true, "", some [("d", .vBool true)]⟩)

/-- A world state satisfying the leaf's desired state. -/
def stSat : WorldState := [("d", .vBool true)]

/-! ### Claim C1 -/

/-- C1, counterexample.  On the all-pending three-node graph with an initial
state already satisfying the root's desired state, `Execute` returns
successfully but marks only the root `skipped`: both descendants remain
`pending`, so neither "every node is completed or skipped" nor
"pending == 0" holds, and the descendants are in particular not `skipped`. -/
theorem claim_C1_counterexample :
    (graphExecute exTbl 5 exGraph [[("a", .vInt 1), ("b", .vInt 2)]] 0).2.2
        = none ∧
      countStatus
        (graphExecute exTbl 5 exGraph [[("a", .vInt 1), ("b", .vInt 2)]] 0).1
        .pending = 2 ∧
      (lookupA
        (graphExecute exTbl 5 exGraph [[("a", .vInt 1), ("b", .vInt 2)]] 0).1.nodes
        "node_1").map GNode.status = some .skipped ∧
      (lookupA
        (graphExecute exTbl 5 exGraph [[("a", .vInt 1), ("b", .vInt 2)]] 0).1.nodes
        "node_2").map GNode.status = some .pending :=
  ⟨by decide, by decide, by decide, by decide⟩

/-- C1, amended.  After `GraphExecutor.Execute` returns successfully on a
graph whose nodes all start `pending`, every node is `completed`, `skipped`
or still `pending` (descendants of a skipped node are never visited and stay
`pending`), and the `failed` and `running` counts are both zero. -/
theorem claim_C1_amended (tbl : List (String × ExecFun)) (fuel : Nat)
    (g : PlanGraph) (store : Store) (ref : Nat)
    (hpend : ∀ p ∈ g.nodes, p.2.status = NStatus.pending)
    (hsucc : (graphExecute tbl fuel g store ref).2.2 = none) :
    (∀ q ∈ (graphExecute tbl fuel g store ref).1.nodes,
        q.2.status = .pending ∨ q.2.status = .completed ∨
          q.2.status = .skipped) ∧
      countStatus (graphExecute tbl fuel g store ref).1 .failed = 0 ∧
      countStatus (graphExecute tbl fuel g store ref).1 .running = 0 := by
  have hrel := executeNode_success_rel tbl fuel g g.rootNodeId
    (store ++ [storeGet store ref]) store.length hsucc
  have hq : ∀ q ∈ (graphExecute tbl fuel g store ref).1.nodes,
      q.2.status = .pending ∨ q.2.status = .completed ∨
        q.2.status = .skipped := by
    intro q hqm
    obtain ⟨p, hp, hr⟩ := forall₂_nodeRel_mem_right hrel q hqm
    rcases hr.2 with he | hs | hs
    · left; rw [he]; exact hpend p hp
    · right; left; exact hs
    · right; right; exact hs
  refine ⟨hq, ?_, ?_⟩
  · unfold countStatus
    rw [List.countP_eq_zero]
    intro kv hkv
    rcases hq kv hkv with h | h | h <;> simp [h]
  · unfold countStatus
    rw [List.countP_eq_zero]
    intro kv hkv
    rcases hq kv hkv with h | h | h <;> simp [h]

/-- C1, witness: the amended theorem applied to the successful run of the
three-node graph from the empty initial state. -/
theorem claim_C1_witness :
    ((∀ p ∈ exGraph.nodes, p.2.status = NStatus.pending) ∧
        (graphExecute exTbl 5 exGraph [[]] 0).2.2 = none) ∧
      (∀ q ∈ (graphExecute exTbl 5 exGraph [[]] 0).1.nodes,
          q.2.status = .pending ∨ q.2.status = .completed ∨
            q.2.status = .skipped) ∧
        countStatus (graphExecute exTbl 5 exGraph [[]] 0).1 .failed = 0 ∧
        countStatus (graphExecute exTbl 5 exGraph [[]] 0).1 .running = 0 :=
  ⟨⟨by decide, by decide⟩,
    claim_C1_amended exTbl 5 exGraph [[]] 0 (by decide) (by decide)⟩

/-! ### Claim C6 -/

theorem updNodes_updNodes (ns : List (String × GNode)) (id : String)
    (s1 s2 : NStatus) (r1 r2 : Option NResult) :
    updNodes (updNodes ns id s1 r1) id s2 r2 = updNodes ns id s2 r2 := by
  induction ns with
  | nil => rfl
  | cons kv t ih =>
    by_cases h : kv.1 = id
    · simp [updNodes, h]
    · simp [updNodes, h, ih]

theorem updateNodeStatus_collapse (g : PlanGraph) (id : String)
    (s1 s2 : NStatus) (r1 r2 : Option NResult) :
    updateNodeStatus (updateNodeStatus g id s1 r1) id s2 r2 =
      updateNodeStatus g id s2 r2 := by
  unfold updateNodeStatus
  rw [updNodes_updNodes]

/-- C6, counterexample.  Re-invoking `Execute` on a graph whose only node is
already `completed` is not a no-op: the node is re-executed from scratch
and, because the supplied state satisfies its desired state, is re-marked
`skipped` with a fresh result — its status and result change and the derived
counts differ. -/
theorem claim_C6_counterexample :
    (lookupA leafDone.nodes "node_1").map GNode.status = some .completed ∧
      (graphExecute [] 3 leafDone [stSat] 0).2.2 = none ∧
      (lookupA (graphExecute [] 3 leafDone [stSat] 0).1.nodes "node_1").map
        GNode.status = some .skipped ∧
      countStatus leafDone .completed = 1 ∧
      countStatus (graphExecute [] 3 leafDone [stSat] 0).1 .completed = 0 :=
  ⟨by decide, by decide, by decide, by decide, by decide⟩

/-- C6, amended.  `executeNode` never consults a node's stored status:
whenever the node exists and the current state matches its desired state,
re-execution drives it through `running` to a fresh `skipped` status with an
overwritten result, whatever its prior status and result were — so a second
`Execute` over a completed-or-skipped graph re-derives statuses instead of
leaving them untouched. -/
theorem claim_C6_amended (tbl : List (String × ExecFun)) (fuel : Nat)
    (g : PlanGraph) (id : String) (node : GNode) (store : Store) (ref : Nat)
    (hn : lookupA g.nodes id = some node)
    (hm : wsMatches (storeGet store ref) node.desiredState = true) :
    executeNode tbl (fuel + 1) g id store ref =
      (updateNodeStatus g id .skipped (some ⟨true, "", none⟩), store, none) := by
  unfold executeNode
  rw [hn]
  simp only [hm, if_true]
  rw [updateNodeStatus_collapse]

/-- C6, witness: the amended theorem applied to the already-completed
one-node graph with a satisfying state. -/
theorem claim_C6_witness :
    (lookupA leafDone.nodes "node_1" =
          some ((lookupA leafDone.nodes "node_1").getD default) ∧
        wsMatches (storeGet [stSat] 0)
          ((lookupA leafDone.nodes "node_1").getD default).desiredState
          = true) ∧
      executeNode [] (2 + 1) leafDone "node_1" [stSat] 0 =
        (updateNodeStatus leafDone "node_1" .skipped (some ⟨true, "", none⟩),
          [stSat], none) :=
  ⟨⟨by decide, by decide⟩,
    claim_C6_amended [] 2 leafDone "node_1"
      ((lookupA leafDone.nodes "node_1").getD default) [stSat] 0
      (by decide) (by decide)⟩

/-! ### Claim C7 -/

theorem storeGet_storeSet_ne (s : Store) {r i : Nat} (w : WorldState)
    (h : r ≠ i) : storeGet (storeSet s r w) i = storeGet s i :=
  getD_set_ne s w h

theorem finishNode_store (nodeId : String) (node : GNode) (ref : Nat)
    (r : PlanGraph × Store × Option String) :
    (finishNode nodeId node ref r).2.1 = r.2.1 := by
  unfold finishNode
  cases r.2.2 <;> rfl

theorem executeAtomicNode_store_other (tbl : List (String × ExecFun)) :
    ∀ (names : List String) (store : Store) (ref i : Nat), i ≠ ref →
      storeGet (executeAtomicNode tbl names store ref).1 i = storeGet store i := by
  intro names
  induction names with
  | nil => intro store ref i _; rfl
  | cons nm rest ih =>
    intro store ref i hi
    unfold executeAtomicNode
    cases lookupA tbl nm with
    | none => rfl
    | some ex =>
      simp only
      cases hx : (ex (storeGet store ref)).2 with
      | some msg =>
        simp only [hx]
        exact storeGet_storeSet_ne store _ (fun h => hi h.symm)
      | none =>
        simp only [hx]
        rw [ih _ ref i hi]
        exact storeGet_storeSet_ne store _ (fun h => hi h.symm)

theorem executeNode_store_other (tbl : List (String × ExecFun)) :
    ∀ (fuel : Nat) (g : PlanGraph) (id : String) (store : Store) (ref i : Nat),
      i ≠ ref →
      storeGet (executeNode tbl fuel g id store ref).2.1 i = storeGet store i := by
  intro fuel
  induction fuel with
  | zero => intro g id store ref i _; rfl
  | succ fuel ih =>
    intro g id store ref i hi
    have hfold : ∀ (children : List String)
        (acc : PlanGraph × Store × Option String),
        storeGet acc.2.1 i = storeGet store i →
        storeGet ((children.foldl
          (fun acc c =>
            match acc.2.2 with
            | some _ => acc
            | none =>
              let rc := executeNode tbl fuel acc.1 c acc.2.1 ref
              match rc.2.2 with
              | some msg =>
                (rc.1, rc.2.1, some ("child node " ++ c ++ " failed: " ++ msg))
              | none => rc)
          acc)).2.1 i = storeGet store i := by
      intro children
      induction children with
      | nil => intro acc hacc; exact hacc
      | cons c rest ihc =>
        intro acc hacc
        rw [List.foldl_cons]
        apply ihc
        cases hstat : acc.2.2 with
        | some e => exact hacc
        | none =>
          cases hrc : (executeNode tbl fuel acc.1 c acc.2.1 ref).2.2 with
          | some msg =>
            simp only [hrc]
            rw [ih acc.1 c acc.2.1 ref i hi]
            exact hacc
          | none =>
            simp only [hrc]
            rw [ih acc.1 c acc.2.1 ref i hi]
            exact hacc
    show storeGet (executeNode tbl (fuel + 1) g id store ref).2.1 i = _
    unfold executeNode
    cases lookupA g.nodes id with
    | none => rfl
    | some node =>
      simp only
      split
      · rfl
      · rw [finishNode_store]
        split
        · exact executeAtomicNode_store_other tbl node.actionNames store ref i hi
        · exact hfold node.childIds
            (updateNodeStatus g id .running none, store, none) rfl

/-- C7, counterexample.  On the three-node run from the empty state the leaf
actions execute (the leaves complete, and the run's state cell ends with
`a:1`), yet the caller's world-state cell is unchanged — the applied effects
are not observable in the caller's value after `Execute` returns, because
`Execute` clones the initial state before executing. -/
theorem claim_C7_counterexample :
    (graphExecute exTbl 5 exGraph [[]] 0).2.2 = none ∧
      (lookupA (graphExecute exTbl 5 exGraph [[]] 0).1.nodes "node_2").map
        GNode.status = some .completed ∧
      wsGet (storeGet (graphExecute exTbl 5 exGraph [[]] 0).2.1 1) "a" =
        some (.vInt 1) ∧
      wsGet (storeGet (graphExecute exTbl 5 exGraph [[]] 0).2.1 0) "a" = none :=
  ⟨by decide, by decide, by decide, by decide⟩

/-- C7, amended.  `GraphExecutor.Execute` clones the caller's world state
into a fresh cell at entry; all action mutations go to the clone, so every
pre-existing store cell — in particular the caller's — is unchanged when
`Execute` returns.  Effects are observable across later nodes of the same
run (which share the clone) but not in the caller's world-state value. -/
theorem claim_C7_amended (tbl : List (String × ExecFun)) (fuel : Nat)
    (g : PlanGraph) (store : Store) (ref i : Nat) (hi : i < store.length) :
    storeGet (graphExecute tbl fuel g store ref).2.1 i = storeGet store i := by
  unfold graphExecute
  rw [executeNode_store_other tbl fuel g g.rootNodeId _ store.length i
    (by omega)]
  unfold storeGet
  rw [List.getD_append _ _ _ _ hi]

/-- C7, witness: the amended theorem applied to the three-node run, cell 0
(the caller's state). -/
theorem claim_C7_witness :
    (0 : Nat) < ([[]] : Store).length ∧
      storeGet (graphExecute exTbl 5 exGraph [[]] 0).2.1 0 =
        storeGet [[]] 0 :=
  ⟨by decide, claim_C7_amended exTbl 5 exGraph [[]] 0 0 (by decide)⟩

/-! ### Composite actions (`CompositeAction.Execute`) -/

/-- Executor view of a sub-action of a composite: a name plus the
world-state transformation of its `Execute` method (the returned state
carries any partial mutation; the second component is the error, `none` on
success). -/
structure SubAction where
  name : String
  exec : WorldState → WorldState × Option String

/-- Structured content of the errors produced by `CompositeAction.Execute`'s
`fmt.Errorf` calls: the precondition failure, or the failing sub-action's
index and name wrapping its cause. -/
inductive CompErr where
  | precondViolated (name : String)
  | subFailed (name : String) (index : Nat) (subName : String) (cause : String)

/-- Embedding of the sub-action loop of `CompositeAction.Execute`: run the
sub-actions in order starting at index `i`, stopping at the first error with
`(index, sub-name, cause)`.  (The loop's `ctx.Done()` check models external
cancellation; absent a cancelled context the `default` branch always runs,
so it is dropped.) -/
def runSubs : List SubAction → Nat → WorldState → WorldState × Option (Nat × String × String)
  | [], _, st => (st, none)
  | s :: rest, i, st =>
    let r := s.exec st
    match r.2 with
    | some c => (r.1, some (i, s.name, c))
    | none => runSubs rest (i + 1) r.1

/-- Embedding of `CompositeAction` (descriptor plus ordered sub-actions). -/
structure CompositeModel where
  name : String
  description : String
  pre : WorldState
  effects : WorldState
  cost : Int
  subactions : List SubAction

/-- Embedding of `CompositeAction.Execute`: precondition re-check, the
sub-action loop, then — only when every sub-action succeeded — application
of the composite's own effects. -/
def compositeExecute (a : CompositeModel) (st : WorldState) :
    WorldState × Option CompErr :=
  if wsMatches st a.pre then
    let r := runSubs a.subactions 0 st
    match r.2 with
    | none => (wsApply r.1 a.effects, none)
    | some e => (r.1, some (.subFailed a.name e.1 e.2.1 e.2.2))
  else (st, some (.precondViolated a.name))

theorem runSubs_cons (s : SubAction) (rest : List SubAction) (i : Nat)
    (st : WorldState) :
    runSubs (s :: rest) i st =
      match (s.exec st).2 with
      | some c => ((s.exec st).1, some (i, s.name, c))
      | none => runSubs rest (i + 1) (s.exec st).1 := rfl

theorem runSubs_append {pre : List SubAction} :
    ∀ (l : List SubAction) (i : Nat) (st st1 : WorldState),
      runSubs pre i st = (st1, none) →
      runSubs (pre ++ l) i st = runSubs l (i + pre.length) st1 := by
  induction pre with
  | nil =>
    intro l i st st1 h
    have h2 : (st, (none : Option (Nat × String × String))) = (st1, none) := h
    obtain ⟨h3, -⟩ := Prod.mk.injEq _ _ _ _ ▸ h2
    rw [← h3]
    simp [runSubs]
  | cons s rest ih =>
    intro l i st st1 h
    rw [runSubs_cons] at h
    rw [List.cons_append, runSubs_cons]
    cases hx : (s.exec st).2 with
    | some c => simp [hx] at h
    | none =>
      simp only [hx] at h ⊢
      rw [ih l (i + 1) _ st1 h]
      have harith : i + 1 + rest.length = i + (rest.length + 1) := by omega
      rw [List.length_cons, harith]

/-- C9, confirmed.  `CompositeAction.Execute` with satisfied preconditions:
if the sub-actions up to some point succeed and the next one fails with
cause `c`, execution stops there — the result holds for **every** list of
later sub-actions, which are therefore never run — the composite's own
effects are not applied (the returned state is the failing sub-action's
output state `st2`, with no `wsApply` of `a.effects`), and the error carries
the failing index, the sub-action's name and the cause.  When every
sub-action succeeds the composite's effects are applied to the loop's final
state.  When the preconditions are not satisfied a `PreconditionViolated`
error is returned. -/
theorem claim_C9_composite_exec (a : CompositeModel) (st st1 st2 : WorldState)
    (preSubs postSubs : List SubAction) (f : SubAction) (c : String) :
    (wsMatches st a.pre = true →
      a.subactions = preSubs ++ f :: postSubs →
      runSubs preSubs 0 st = (st1, none) →
      f.exec st1 = (st2, some c) →
      compositeExecute a st =
        (st2, some (.subFailed a.name preSubs.length f.name c))) ∧
    (wsMatches st a.pre = true →
      runSubs a.subactions 0 st = (st1, none) →
      compositeExecute a st = (wsApply st1 a.effects, none)) ∧
    (wsMatches st a.pre = false →
      compositeExecute a st = (st, some (.precondViolated a.name))) := by
  refine ⟨?_, ?_, ?_⟩
  · intro hpre hsubs hrun hfail
    unfold compositeExecute
    rw [if_pos hpre, hsubs, runSubs_append (f :: postSubs) 0 st st1 hrun]
    unfold runSubs
    rw [hfail]
    simp
  · intro hpre hrun
    unfold compositeExecute
    rw [if_pos hpre, hrun]
  · intro hpre
    unfold compositeExecute
    rw [if_neg (by rw [hpre]; exact Bool.false_ne_true)]

/-- Successful first sub-action: sets `s1`. -/
def subOk : SubAction := ⟨"ok", fun ws => (wsSet ws "s1" (.vBool true), none)⟩

/-- Failing second sub-action. -/
def subBad : SubAction := ⟨"bad", fun ws => (ws, some "boom")⟩

/-- A third sub-action that must never run. -/
def subNever : SubAction := ⟨"never", fun ws => (wsSet ws "oops" (.vBool true), none)⟩

/-- A composite over the three sub-actions with its own effects fragment. -/
def compW : CompositeModel :=
  ⟨"comp", "", [], [("done", .vBool true)], 1, [subOk, subBad, subNever]⟩

/-- C9, witness: the failure branch of the theorem applied to `compW` from
the empty state — execution stops at index 1 (`bad`), `oops` and `done` are
never set. -/
theorem claim_C9_witness :
    wsMatches [] compW.pre = true ∧
      compositeExecute compW [] =
        ([("s1", .vBool true)],
          some (.subFailed compW.name [subOk].length subBad.name "boom")) :=
  ⟨by decide,
    (claim_C9_composite_exec compW [] [("s1", .vBool true)] [("s1", .vBool true)]
        [subOk] [subNever] subBad "boom").1 (by decide) rfl rfl rfl⟩

/-! ### Store-passing `Planner.FindPlan` (aliasing-aware embedding)

To settle whether `FindPlan` mutates its inputs, the search is embedded a
second time with the world states held in store cells, so that Go's pointer
aliasing is explicit: `Clone` allocates a fresh cell, `Apply` mutates a
cell in place, and reads go through the store.  The control flow is the
same line-for-line translation of the source as `findPlan` above. -/

/-- Search node of the store-passing embedding: the state is a cell
reference. -/
structure ANodeSt where
  stateRef : Nat
  actions : List PAction
  gCost : Int
  hCost : Int
deriving Inhabited

/-- `Node.FCost` of the store-passing embedding. -/
def fCostSt (n : ANodeSt) : Int := n.gCost + n.hCost

/-- Embedding of `WorldState.Clone` under aliasing: allocate a fresh cell
holding a copy, returning the new store and the new cell's reference. -/
def cloneRef (s : Store) (r : Nat) : Store × Nat := (s ++ [storeGet s r], s.length)

/-- Store-passing successor expansion of `FindPlan`: clone the popped
node's state, apply the action's effects to the clone in place, and push
the successor unless its state key was already visited. -/
def expandNodeSt (acts : List PAction) (goalRef : Nat) (cur : ANodeSt)
    (visited : List String) (store : Store) (openSet : List ANodeSt) :
    Store × List ANodeSt :=
  acts.foldl
    (fun acc a =>
      if wsMatches (storeGet acc.1 cur.stateRef) a.pre then
        let cl := cloneRef acc.1 cur.stateRef
        let s2 := storeSet cl.1 cl.2 (wsApply (storeGet cl.1 cl.2) a.effects)
        let newState := storeGet s2 cl.2
        if wsString newState ∈ visited then (s2, acc.2)
        else
          (s2, heapPush fCostSt acc.2
            ⟨cl.2, cur.actions ++ [a], cur.gCost + a.cost,
              (wsDistance newState (storeGet s2 goalRef) : Int)⟩)
      else acc)
    (store, openSet)

/-- Store-passing main loop of `FindPlan`. -/
def findLoopSt (acts : List PAction) (goalRef : Nat) :
    Nat → Store → List ANodeSt → List String → Store × Option Plan
  | 0, store, _, _ => (store, none)
  | fuel + 1, store, openSet, visited =>
    match heapPop fCostSt openSet with
    | none => (store, none)
    | some (cur, rest) =>
      let stateKey := wsString (storeGet store cur.stateRef)
      if stateKey ∈ visited then findLoopSt acts goalRef fuel store rest visited
      else
        let visited2 := stateKey :: visited
        if wsMatches (storeGet store cur.stateRef) (storeGet store goalRef) then
          (store, some ⟨cur.actions, cur.gCost⟩)
        else
          let ex := expandNodeSt acts goalRef cur visited2 store rest
          findLoopSt acts goalRef fuel ex.1 ex.2 visited2

/-- Store-passing embedding of `Planner.FindPlan`: the current state and
the goal's desired state are the caller's cells `curRef` and `goalRef`; the
search starts from a fresh clone of `curRef`. -/
def findPlanSt (acts : List PAction) (store : Store) (curRef goalRef : Nat) :
    Store × Option Plan :=
  if wsMatches (storeGet store curRef) (storeGet store goalRef) then
    (store, some ⟨[], 0⟩)
  else
    let cl := cloneRef store curRef
    let startNode : ANodeSt :=
      ⟨cl.2, [], 0,
        (wsDistance (storeGet store curRef) (storeGet store goalRef) : Int)⟩
    findLoopSt acts goalRef 1000 cl.1 (heapPush fCostSt [] startNode) []

theorem expandNodeSt_preserve (acts : List PAction) (goalRef : Nat)
    (cur : ANodeSt) (visited : List String) (L : Nat) :
    ∀ (store : Store) (openSet : List ANodeSt), L ≤ store.length →
      L ≤ (expandNodeSt acts goalRef cur visited store openSet).1.length ∧
      ∀ i < L, storeGet (expandNodeSt acts goalRef cur visited store openSet).1 i
        = storeGet store i := by
  unfold expandNodeSt
  induction acts with
  | nil => intro store openSet hL; exact ⟨hL, fun i _ => rfl⟩
  | cons a rest ih =>
    intro store openSet hL
    rw [List.foldl_cons]
    by_cases hpre : wsMatches (storeGet store cur.stateRef) a.pre = true
    · simp only [hpre, if_true]
      have hset : ∀ (ns : WorldState),
          (storeSet (cloneRef store cur.stateRef).1 (cloneRef store cur.stateRef).2
              ns).length = store.length + 1 ∧
            ∀ i < L, storeGet
              (storeSet (cloneRef store cur.stateRef).1
                (cloneRef store cur.stateRef).2 ns) i = storeGet store i := by
        intro ns
        constructor
        · simp [cloneRef, storeSet]
        · intro i hiL
          unfold cloneRef storeGet storeSet
          rw [getD_set_ne _ _ (by simp only; omega),
            List.getD_append _ _ _ _ (by omega)]
      split
      · obtain ⟨hlen, hcells⟩ := ih
          (storeSet (cloneRef store cur.stateRef).1 (cloneRef store cur.stateRef).2
            (wsApply (storeGet (cloneRef store cur.stateRef).1
              (cloneRef store cur.stateRef).2) a.effects))
          openSet (by
            rw [(hset _).1]
            omega)
        refine ⟨hlen, fun i hi => ?_⟩
        rw [hcells i hi]
        exact (hset _).2 i hi
      · obtain ⟨hlen, hcells⟩ := ih
          (storeSet (cloneRef store cur.stateRef).1 (cloneRef store cur.stateRef).2
            (wsApply (storeGet (cloneRef store cur.stateRef).1
              (cloneRef store cur.stateRef).2) a.effects))
          (heapPush fCostSt openSet
            ⟨(cloneRef store cur.stateRef).2, cur.actions ++ [a],
              cur.gCost + a.cost, _⟩) (by
            rw [(hset _).1]
            omega)
        refine ⟨hlen, fun i hi => ?_⟩
        rw [hcells i hi]
        exact (hset _).2 i hi
    · simp only [hpre, if_false]
      exact ih store openSet hL

theorem findLoopSt_preserve (acts : List PAction) (goalRef : Nat) (L : Nat) :
    ∀ (fuel : Nat) (store : Store) (openSet : List ANodeSt)
      (visited : List String), L ≤ store.length →
      ∀ i < L, storeGet (findLoopSt acts goalRef fuel store openSet visited).1 i
        = storeGet store i := by
  intro fuel
  induction fuel with
  | zero => intro store openSet visited _ i _; rfl
  | succ fuel ih =>
    intro store openSet visited hL i hi
    unfold findLoopSt
    cases heapPop fCostSt openSet with
    | none => rfl
    | some pr =>
      obtain ⟨cur, rest⟩ := pr
      simp only
      split
      · exact ih store rest visited hL i hi
      · split
        · rfl
        · obtain ⟨hlen, hcells⟩ := expandNodeSt_preserve acts goalRef cur _ L
            store rest hL
          rw [ih _ _ _ hlen i hi]
          exact hcells i hi

/-- C10, confirmed.  `Planner.FindPlan` never modifies its inputs: in the
aliasing-aware embedding, every store cell that existed before the call —
in particular the caller's current world state (`curRef`) and the goal's
desired-state fragment (`goalRef`) — holds the same value after the search
returns, because the search clones the state before starting and clones
each node state before applying an action's effects. -/
theorem claim_C10_inputs_unchanged (acts : List PAction) (store : Store)
    (curRef goalRef i : Nat) (hi : i < store.length) :
    storeGet (findPlanSt acts store curRef goalRef).1 i = storeGet store i := by
  unfold findPlanSt
  split
  · rfl
  · rw [findLoopSt_preserve acts goalRef store.length 1000
      (cloneRef store curRef).1 _ [] (by simp [cloneRef]) i hi]
    unfold cloneRef storeGet
    rw [List.getD_append _ _ _ _ hi]

/-- C10, witness: a two-cell store (current state `{x:1}` in cell 0, the
goal fragment `{s1:true}` in cell 1); after the search — which does find a
plan — cell 0 is unchanged. -/
theorem claim_C10_witness :
    (0 : Nat) < ([[("x", .vInt 1)], [("s1", .vBool true)]] : Store).length ∧
      storeGet
        (findPlanSt [wA1] [[("x", .vInt 1)], [("s1", .vBool true)]] 0 1).1 0 =
        storeGet [[("x", .vInt 1)], [("s1", .vBool true)]] 0 ∧
      (findPlanSt [wA1] [[("x", .vInt 1)], [("s1", .vBool true)]] 0 1).2 =
        some ⟨[wA1], 1⟩ :=
  ⟨by decide,
    claim_C10_inputs_unchanged [wA1] [[("x", .vInt 1)], [("s1", .vBool true)]]
      0 1 0 (by decide),
    by decide⟩

end GoapSpec
